import Mathlib

/-!
# Verification of the passage segmentation / retrieval consolidation engine

Shallow embedding, in Lean 4, of the core retrieval substrate of the
policy-analysis repository:

* `src/Agent/utils/chunking.py` — `PolicyDocumentChunker` (`_smart_truncate`,
  `_extract_overlap_text`, `chunk_document`, `__init__`);
* `src/Agent/agents/novelty_agent.py` — `_deduplicate_chunks`
  (dedup + time weighting);
* `src/utils/reranker.py` — `BCEReranker.rerank` (its effect on the caller's
  candidate list);
* `src/agents/enhanced_rag_agent.py` — `merge_chunks_by_doc_id`;
* `src/Agent/vector_db.py` — `search_chunks_multi_query` (the by-`chunk_id`
  merge of per-fragment hits).

Modelling conventions:
* Python strings are `List Char` (`Text`) where slicing/length matter, and
  Lean `String` where they are only compared for equality.
* Python float arithmetic on scores is modelled with `ℚ`; the fractional
  threshold tests of the truncation heuristics (`pos > max_length * 0.5`
  etc.) are modelled by the exact integer inequalities they decide
  (`2 * pos > max_length`, ...), which agree with the float computation at
  every integer `pos`.
* Python dicts are insertion-ordered association lists; updating an existing
  key replaces the stored value in place, as CPython does.
* `dict.get(k, d)` on an optional record field is `Option.getD`.
* `list.sort(key=..., reverse=True)` (CPython's stable timsort) is
  `stableSort` below — a stable, structurally recursive sort — with the
  corresponding boolean comparison; for the total preorders used here a
  stable sort's output is unique, so this models timsort exactly.
* External collaborators (the vector store, the embedding model, the
  cross-encoder) are abstracted as parameters: a list of hits per query
  fragment, a score per candidate index.  Likewise the two regex helpers
  `_split_into_paragraphs` / `_is_clause_start` of the chunker are
  parameters of `chunkDocument`; all theorems below hold for every
  instantiation of these parameters.
-/

namespace PolicyRAG

/-- Python text, modelled as a list of characters (Python `len`/slicing are
`List.length`/`take`/`drop`). -/
abbrev Text := List Char

/-- The characters stripped by Python's `str.strip()` for ASCII input
(`' '`, `'\t'`, `'\n'`, `'\r'`, `'\x0b'`, `'\x0c'`). -/
def isPyWS (c : Char) : Bool :=
  c == ' ' || c == '\t' || c == '\n' || c == '\r' || c == '\x0b' || c == '\x0c'

/-- Python `str.lstrip()`. -/
def lstripT (s : Text) : Text := s.dropWhile isPyWS

/-- Python `str.rstrip()`. -/
def rstripT (s : Text) : Text := (s.reverse.dropWhile isPyWS).reverse

/-- Python `str.strip()`. -/
def stripT (s : Text) : Text := rstripT (lstripT s)

/-- `leadsWith p h` holds when `p` is an initial segment of `h`
(used to locate substring occurrences). -/
def leadsWith : Text → Text → Bool
  | [], _ => true
  | _ :: _, [] => false
  | p :: ps, h :: hs => p == h && leadsWith ps hs

/-- Python `hay.rfind(pat)`: the largest index at which `pat` occurs in
`hay`, and `-1` when there is no occurrence. -/
def rfindSub (hay pat : Text) : Int :=
  (List.range (hay.length + 1)).foldl
    (fun acc i => if leadsWith pat (hay.drop i) then (i : Int) else acc) (-1)

/-- Python `hay.find(pat)`: the smallest index at which `pat` occurs in
`hay`, and `-1` when there is no occurrence. -/
def findSub (hay pat : Text) : Int :=
  (List.range (hay.length + 1)).foldr
    (fun i acc => if leadsWith pat (hay.drop i) then (i : Int) else acc) (-1)

theorem length_lstripT_le (s : Text) : (lstripT s).length ≤ s.length :=
  (List.dropWhile_sublist (l := s) (p := isPyWS)).length_le

theorem length_rstripT_le (s : Text) : (rstripT s).length ≤ s.length := by
  simpa [rstripT] using
    (List.dropWhile_sublist (l := s.reverse) (p := isPyWS)).length_le

theorem length_stripT_le (s : Text) : (stripT s).length ≤ s.length :=
  (length_rstripT_le _).trans (length_lstripT_le s)

theorem leadsWith_length {p h : Text} (hp : leadsWith p h = true) :
    p.length ≤ h.length := by
  induction p generalizing h with
  | nil => simp
  | cons c cs ih =>
    cases h with
    | nil => simp [leadsWith] at hp
    | cons d ds =>
      simp only [leadsWith, Bool.and_eq_true] at hp
      simpa [Nat.succ_le_succ_iff] using ih hp.2

/-- A successful `rfind` leaves room for the pattern: the found index plus
the pattern length is at most the haystack length. -/
theorem rfindSub_bound (hay pat : Text) :
    rfindSub hay pat = -1 ∨
      (0 ≤ rfindSub hay pat ∧ rfindSub hay pat + pat.length ≤ hay.length) := by
  unfold rfindSub
  have h : ∀ (l : List ℕ) (acc : Int),
      (∀ i ∈ l, i ≤ hay.length) →
      (acc = -1 ∨ (0 ≤ acc ∧ acc + pat.length ≤ hay.length)) →
      (l.foldl (fun acc i => if leadsWith pat (hay.drop i) then (i : Int) else acc) acc = -1 ∨
        (0 ≤ l.foldl (fun acc i => if leadsWith pat (hay.drop i) then (i : Int) else acc) acc ∧
          l.foldl (fun acc i => if leadsWith pat (hay.drop i) then (i : Int) else acc) acc
            + pat.length ≤ hay.length)) := by
    intro l
    induction l with
    | nil => intro acc _ hacc; simpa using hacc
    | cons i is ih =>
      intro acc hmem hacc
      simp only [List.foldl_cons]
      apply ih
      · intro j hj; exact hmem j (List.mem_cons_of_mem _ hj)
      · by_cases hlw : leadsWith pat (hay.drop i) = true
        · right
          have hle : pat.length ≤ (hay.drop i).length := leadsWith_length hlw
          have hi : i ≤ hay.length := hmem i (List.mem_cons_self _ _)
          simp only [hlw, if_true]
          constructor
          · exact Int.ofNat_nonneg i
          · have : (i : ℤ) + pat.length ≤ hay.length := by
              have hdrop : (hay.drop i).length = hay.length - i := List.length_drop i hay
              omega
            exact this
        · simp only [hlw, if_false]; exact hacc
  apply h
  · intro i hi
    have := List.mem_range.mp hi
    omega
  · left; rfl

/-! ## Chunker (`src/Agent/utils/chunking.py`) -/

/-- `self.paragraph_delimiters = ['\n\n', '\n\n\n', '\r\n\r\n']`. -/
def paragraphDelimiters : List Text :=
  [['\n', '\n'], ['\n', '\n', '\n'], ['\r', '\n', '\r', '\n']]

/-- `self.sentence_delimiters = ['。', '！', '？', '；']`. -/
def sentenceDelimiters : List Char := ['。', '！', '？', '；']

/-- `PolicyDocumentChunker._smart_truncate`.  The float threshold tests
`pos > max_length * 0.5` / `* 0.6` / `* 0.8` are the exact integer
inequalities `2*pos > m` / `5*pos > 3*m` / `5*pos > 4*m`. -/
def smartTruncate (text : Text) (maxLength : Nat) : Text :=
  if text.length ≤ maxLength then text
  else
    let truncated := text.take maxLength
    -- priority 1: paragraph delimiters, keeping at least 50% of the length
    let bp1 : Int := paragraphDelimiters.foldl
      (fun bp d =>
        let pos := rfindSub truncated d
        if pos > bp ∧ 2 * pos > (maxLength : Int) then pos + d.length else bp)
      (-1)
    -- priority 2: sentence delimiters (only when no paragraph delimiter hit),
    -- keeping at least 60%
    let bp2 : Int :=
      if bp1 < 0 then
        sentenceDelimiters.foldl
          (fun bp c =>
            let pos := rfindSub truncated [c]
            if pos > bp ∧ 5 * pos > 3 * (maxLength : Int) then pos + 1 else bp)
          bp1
      else bp1
    if bp2 > 0 then stripT (text.take bp2.toNat)
    else
      -- priority 3: a space, keeping at least 80%; otherwise the hard cut
      let spacePos := rfindSub truncated [' ']
      if 5 * spacePos > 4 * (maxLength : Int) then stripT (text.take spacePos.toNat)
      else stripT truncated

/-- `PolicyDocumentChunker._extract_overlap_text`: an `overlap`-sized suffix of
`text`, advanced past the first sentence delimiter found in the initial 30%
of the window (`pos > 0 and pos < target_length * 0.3`, i.e.
`10*pos < 3*target`). -/
def extractOverlapText (text : Text) (targetLength : Nat) : Text :=
  if text.length ≤ targetLength then text
  else
    let truncated := text.drop (text.length - targetLength)
    match sentenceDelimiters.find? (fun c =>
        let pos := findSub truncated [c]
        decide (pos > 0 ∧ 10 * pos < 3 * (targetLength : Int))) with
    | some c => stripT (truncated.drop ((findSub truncated [c]).toNat + 1))
    | none => stripT truncated

/-- The four numeric parameters stored by `PolicyDocumentChunker.__init__`. -/
structure ChunkerConfig where
  chunk_size_target : Nat
  chunk_size_max : Nat
  overlap : Nat
  absolute_max : Nat
  deriving Repr, DecidableEq

/-- `PolicyDocumentChunker.__init__`.  A `none` result would model the
constructor raising a configuration error; the Python body only assigns the
four parameters to fields and performs no validation, so every parameter
combination is accepted. -/
def policyChunkerInit (target maxSize overlap absoluteMax : Nat) :
    Option ChunkerConfig :=
  some ⟨target, maxSize, overlap, absoluteMax⟩

/-- The `DocumentChunk` dataclass. -/
structure DocumentChunk where
  chunk_id : String
  doc_id : String
  chunk_index : Nat
  chunk_type : String
  content : Text
  title : Text
  timestamp : Text
  industries : Text
  investment_relevance : Text
  report_series : Text
  industry_policy_segments : Text
  deriving Repr, DecidableEq

/-- The document metadata denormalized into every chunk (after the
`str(...)[:500]` / `[:150]` truncations applied by `chunk_document`). -/
structure DocMeta where
  doc_id : String
  title : Text
  timestamp : Text
  industries : Text
  investment_relevance : Text
  report_series : Text
  industry_policy_segments : Text
  deriving Repr, DecidableEq

/-- Building one emitted `DocumentChunk`
(`chunk_id = f"{doc_id}_chunk_{chunk_idx}"`). -/
def mkChunk (md : DocMeta) (idx : Nat) (ctype : String) (content : Text) :
    DocumentChunk where
  chunk_id := md.doc_id ++ "_chunk_" ++ toString idx
  doc_id := md.doc_id
  chunk_index := idx
  chunk_type := ctype
  content := content
  title := md.title
  timestamp := md.timestamp
  industries := md.industries
  investment_relevance := md.investment_relevance
  report_series := md.report_series
  industry_policy_segments := md.industry_policy_segments

/-- `'\n\n'.join(current_chunk_parts)`. -/
def joinParas (parts : List Text) : Text := List.intercalate ['\n', '\n'] parts

/-- The `while len(remaining) > 0` loop that iteratively truncates one
paragraph longer than `absolute_max`.  The loop is driven by fuel (the
caller passes `remaining.length + 1`): when `_smart_truncate` returns an
empty piece without shortening `remaining` the Python loop does not
terminate, and the fuel cuts the iteration off instead; every theorem below
holds for any fuel. -/
def splitLongLoop (absMax : Nat) : Nat → Text → List Text
  | 0, _ => []
  | fuel + 1, remaining =>
    if remaining.length = 0 then []
    else if remaining.length ≤ absMax then [remaining]
    else
      let part := smartTruncate remaining absMax
      let rest := lstripT (remaining.drop part.length)
      if part.length = 0 then splitLongLoop absMax fuel rest
      else part :: splitLongLoop absMax fuel rest

/-- The pieces emitted for one over-long paragraph. -/
def splitLongPara (absMax : Nat) (para : Text) : List Text :=
  splitLongLoop absMax (para.length + 1) para

/-- The running state of the paragraph-accumulation loop of
`chunk_document`: emitted chunks, the current buffer (`current_chunk_parts`),
its tracked size (`current_chunk_size`) and the next chunk index. -/
structure ChunkState where
  chunks : List DocumentChunk
  parts : List Text
  size : Nat
  idx : Nat
  deriving Repr

/-- One iteration of the `for para in paragraphs` loop of `chunk_document`.
`isClause` abstracts the regex helper `_is_clause_start`. -/
def chunkStep (cfg : ChunkerConfig) (isClause : Text → Bool) (md : DocMeta)
    (st : ChunkState) (para : Text) : ChunkState :=
  let paraSize := para.length
  if paraSize > cfg.absolute_max then
    -- a single paragraph longer than absolute_max: flush the buffer, then
    -- iteratively split the paragraph
    let st1 :=
      if st.parts ≠ [] then
        { chunks := st.chunks ++
            [mkChunk md st.idx "paragraph"
              (smartTruncate (joinParas st.parts) cfg.absolute_max)],
          parts := [], size := 0, idx := st.idx + 1 }
      else st
    let pieces := splitLongPara cfg.absolute_max para
    { st1 with
      chunks := st1.chunks ++
        pieces.mapIdx (fun j p => mkChunk md (st1.idx + j) "paragraph" p),
      idx := st1.idx + pieces.length }
  else
    let isCl := isClause para
    let shouldStartNew := isCl = true
      ∨ st.size + paraSize > cfg.chunk_size_target
      ∨ (0 < st.size ∧ st.size + paraSize > cfg.chunk_size_max)
    let st2 :=
      if shouldStartNew ∧ st.parts ≠ [] then
        let ctype :=
          if st.parts.any (fun p => isClause p) then "clause" else "paragraph"
        let chunksNew := st.chunks ++
          [mkChunk md st.idx ctype
            (smartTruncate (joinParas st.parts) cfg.absolute_max)]
        let idxNew := st.idx + 1
        if 0 < cfg.overlap ∧ st.parts ≠ [] then
          let lastPart := st.parts.getLastD []
          let overlapText :=
            if cfg.overlap < lastPart.length then
              extractOverlapText lastPart cfg.overlap
            else lastPart
          if overlapText ≠ [] then
            { chunks := chunksNew, parts := [overlapText, para],
              size := overlapText.length + paraSize, idx := idxNew }
          else
            { chunks := chunksNew, parts := [para], size := paraSize,
              idx := idxNew }
        else
          { chunks := chunksNew, parts := [para], size := paraSize,
            idx := idxNew }
      else
        { st with parts := st.parts ++ [para], size := st.size + paraSize }
    if st2.size > cfg.chunk_size_max then
      { chunks := st2.chunks ++
          [mkChunk md st2.idx "paragraph"
            (smartTruncate (joinParas st2.parts) cfg.absolute_max)],
        parts := [], size := 0, idx := st2.idx + 1 }
    else st2

/-- `PolicyDocumentChunker.chunk_document`.  `splitParas` abstracts the regex
helper `_split_into_paragraphs` and `isClause` abstracts
`_is_clause_start`; every theorem below is universally quantified over both,
so it covers the repository's concrete regex implementations. -/
def chunkDocument (cfg : ChunkerConfig) (splitParas : Text → List Text)
    (isClause : Text → Bool) (docId : String)
    (title timestamp industries investmentRelevance reportSeries
      industryPolicySegments : Text) (content : Text) : List DocumentChunk :=
  let md : DocMeta :=
    { doc_id := docId, title := title.take 500, timestamp := timestamp.take 150,
      industries := industries.take 500,
      investment_relevance := investmentRelevance,
      report_series := reportSeries,
      industry_policy_segments := industryPolicySegments }
  let paras := splitParas content
  let st := paras.foldl (chunkStep cfg isClause md) ⟨[], [], 0, 0⟩
  let chunks :=
    if st.parts ≠ [] then
      st.chunks ++
        [mkChunk md st.idx "paragraph"
          (smartTruncate (joinParas st.parts) cfg.absolute_max)]
    else st.chunks
  -- final defensive pass: re-truncate any chunk exceeding absolute_max
  chunks.map (fun c =>
    if cfg.absolute_max < c.content.length then
      { c with content := smartTruncate c.content cfg.absolute_max }
    else c)

/-! ### Length bound of `_smart_truncate` -/

theorem paraFold_le (t : Text) (m : Nat) (ht : t.length ≤ m) :
    ∀ (ds : List Text) (bp : Int), bp ≤ (m : Int) →
      ds.foldl (fun bp d =>
        let pos := rfindSub t d
        if pos > bp ∧ 2 * pos > (m : Int) then pos + d.length else bp) bp
        ≤ (m : Int) := by
  intro ds
  induction ds with
  | nil => intro bp hbp; simpa using hbp
  | cons d ds ih =>
    intro bp hbp
    simp only [List.foldl_cons]
    apply ih
    dsimp only
    split_ifs with hg
    · rcases rfindSub_bound t d with h1 | ⟨_, h2⟩
      · exfalso; rw [h1] at hg; omega
      · have hl : (t.length : Int) ≤ m := by exact_mod_cast ht
        omega
    · exact hbp

theorem sentFold_le (t : Text) (m : Nat) (ht : t.length ≤ m) :
    ∀ (cs : List Char) (bp : Int), bp ≤ (m : Int) →
      cs.foldl (fun bp c =>
        let pos := rfindSub t [c]
        if pos > bp ∧ 5 * pos > 3 * (m : Int) then pos + 1 else bp) bp
        ≤ (m : Int) := by
  intro cs
  induction cs with
  | nil => intro bp hbp; simpa using hbp
  | cons c cs ih =>
    intro bp hbp
    simp only [List.foldl_cons]
    apply ih
    dsimp only
    split_ifs with hg
    · rcases rfindSub_bound t [c] with h1 | ⟨_, h2⟩
      · exfalso; rw [h1] at hg; omega
      · have hl : (t.length : Int) ≤ m := by exact_mod_cast ht
        simp only [List.length_cons, List.length_nil] at h2
        omega
    · exact hbp

/-- Every result of `_smart_truncate text max_length` has length at most
`max_length`. -/
theorem smartTruncate_length_le (text : Text) (m : Nat) :
    (smartTruncate text m).length ≤ m := by
  unfold smartTruncate
  by_cases h0 : text.length ≤ m
  · simp [h0]
  · simp only [h0, if_false]
    have htrunc : (text.take m).length ≤ m := by
      simp [List.length_take]
    have hb1 : paragraphDelimiters.foldl
        (fun bp d =>
          let pos := rfindSub (text.take m) d
          if pos > bp ∧ 2 * pos > (m : Int) then pos + d.length else bp) (-1)
        ≤ (m : Int) := by
      apply paraFold_le _ _ htrunc
      omega
    set bp1 : Int := paragraphDelimiters.foldl
        (fun bp d =>
          let pos := rfindSub (text.take m) d
          if pos > bp ∧ 2 * pos > (m : Int) then pos + d.length else bp) (-1)
      with hbp1
    have hb2 : (if bp1 < 0 then
        sentenceDelimiters.foldl
          (fun bp c =>
            let pos := rfindSub (text.take m) [c]
            if pos > bp ∧ 5 * pos > 3 * (m : Int) then pos + 1 else bp) bp1
      else bp1) ≤ (m : Int) := by
      by_cases hneg : bp1 < 0
      · simp only [hneg, if_true]
        apply sentFold_le _ _ htrunc
        omega
      · simpa [hneg] using hb1
    set bp2 : Int := (if bp1 < 0 then
        sentenceDelimiters.foldl
          (fun bp c =>
            let pos := rfindSub (text.take m) [c]
            if pos > bp ∧ 5 * pos > 3 * (m : Int) then pos + 1 else bp) bp1
      else bp1) with hbp2
    by_cases hpos : bp2 > 0
    · simp only [hpos, if_true]
      calc (stripT (text.take bp2.toNat)).length
          ≤ (text.take bp2.toNat).length := length_stripT_le _
        _ ≤ bp2.toNat := by simp [List.length_take]
        _ ≤ m := by omega
    · simp only [hpos, if_false]
      by_cases hsp : 5 * rfindSub (text.take m) [' '] > 4 * (m : Int)
      · simp only [hsp, if_true]
        rcases rfindSub_bound (text.take m) [' '] with h1 | ⟨hge, h2⟩
        · exfalso; rw [h1] at hsp; omega
        · calc (stripT (text.take (rfindSub (text.take m) [' ']).toNat)).length
              ≤ (text.take (rfindSub (text.take m) [' ']).toNat).length :=
                length_stripT_le _
            _ ≤ (rfindSub (text.take m) [' ']).toNat := by simp [List.length_take]
            _ ≤ m := by
                simp only [List.length_cons, List.length_nil] at h2
                have := htrunc
                omega
      · simp only [hsp, if_false]
        exact (length_stripT_le _).trans htrunc

/-- C1: for every chunker configuration and every input document (and every
instantiation of the paragraph-splitting and clause-detection helpers),
every chunk returned by `chunk_document` has content length at most
`absolute_max`: every emitted chunk's content passes through
`_smart_truncate`, and the final post-pass re-truncates any violator. -/
theorem chunk_length_invariant (cfg : ChunkerConfig)
    (splitParas : Text → List Text) (isClause : Text → Bool) (docId : String)
    (title ts ind inv rep ips content : Text) :
    ∀ c ∈ chunkDocument cfg splitParas isClause docId title ts ind inv rep ips
        content,
      c.content.length ≤ cfg.absolute_max := by
  intro c hc
  unfold chunkDocument at hc
  simp only [List.mem_map] at hc
  obtain ⟨c0, -, rfl⟩ := hc
  by_cases h : cfg.absolute_max < c0.content.length
  · simpa [h] using smartTruncate_length_le c0.content cfg.absolute_max
  · simp only [h, if_false]
    omega

/-- Witness for C1: the default configuration on a one-paragraph document. -/
theorem chunk_length_invariant_witness :
    (mkChunk ⟨"d", [], [], [], [], [], []⟩ 0 "paragraph"
        "abcdefghijk".toList).content.length ≤ 1200 :=
  chunk_length_invariant ⟨800, 1000, 150, 1200⟩ (fun t => [t]) (fun _ => false)
    "d" [] [] [] [] [] [] "abcdefghijk".toList _ (by decide)

/-! ## Consolidator: `_deduplicate_chunks` (`src/Agent/agents/novelty_agent.py`)

Python dicts keyed by `(title, timestamp)` are insertion-ordered association
lists; assigning to an existing key replaces the stored value in place. -/

/-- First value stored under a key (`d[k]` / `k in d`). -/
def assocFind {κ β : Type} [DecidableEq κ] : List (κ × β) → κ → Option β
  | [], _ => none
  | p :: ps, k => if p.1 = k then some p.2 else assocFind ps k

/-- `d[k] = v` for a key already present: the stored value is replaced, the
key keeps its position. -/
def assocReplace {κ β : Type} [DecidableEq κ] : List (κ × β) → κ → β → List (κ × β)
  | [], _, _ => []
  | p :: ps, k, v => if p.1 = k then (k, v) :: ps else p :: assocReplace ps k v

/-- Stable insertion of `a` into `l`: `a` is placed before the first element
`b` with `le a b` (so an element equal to `a` under the preorder keeps its
earlier position — the stability guarantee of CPython's `list.sort`). -/
def insertOrd {α : Type} (le : α → α → Bool) (a : α) : List α → List α
  | [] => [a]
  | b :: bs => if le a b then a :: b :: bs else b :: insertOrd le a bs

/-- A stable sort (structural recursion, so it evaluates by `decide`): the
model of CPython's stable `list.sort` with boolean comparison `le`.  For a
total, transitive `le` a stable sort's output is unique, so this coincides
with timsort. -/
def stableSort {α : Type} (le : α → α → Bool) : List α → List α
  | [] => []
  | a :: as => insertOrd le a (stableSort le as)

theorem insertOrd_perm {α : Type} (le : α → α → Bool) (a : α) (l : List α) :
    (insertOrd le a l).Perm (a :: l) := by
  induction l with
  | nil => simp [insertOrd]
  | cons b bs ih =>
    by_cases h : le a b
    · simp [insertOrd, h]
    · simp only [insertOrd, h, if_false]
      exact (ih.cons b).trans (List.Perm.swap a b bs)

theorem stableSort_perm {α : Type} (le : α → α → Bool) (l : List α) :
    (stableSort le l).Perm l := by
  induction l with
  | nil => simp [stableSort]
  | cons a as ih =>
    exact (insertOrd_perm le a (stableSort le as)).trans (ih.cons a)

theorem pairwise_insertOrd {α : Type} {le : α → α → Bool}
    (htot : ∀ a b, le a b = true ∨ le b a = true)
    (htrans : ∀ a b c, le a b = true → le b c = true → le a c = true)
    (a : α) {l : List α} (hl : l.Pairwise (fun x y => le x y = true)) :
    (insertOrd le a l).Pairwise (fun x y => le x y = true) := by
  induction l with
  | nil => simp [insertOrd]
  | cons b bs ih =>
    rcases List.pairwise_cons.mp hl with ⟨hb, hbs⟩
    by_cases h : le a b
    · simp only [insertOrd, h, if_true]
      refine List.pairwise_cons.mpr ⟨?_, hl⟩
      intro x hx
      rcases List.mem_cons.mp hx with rfl | hx
      · exact h
      · exact htrans a b x h (hb x hx)
    · simp only [insertOrd, h, if_false]
      refine List.pairwise_cons.mpr ⟨?_, ih hbs⟩
      intro x hx
      have hx' := (insertOrd_perm le a bs).mem_iff.mp hx
      rcases List.mem_cons.mp hx' with rfl | hx'
      · rcases htot b x with h1 | h1
        · exact h1
        · exact absurd h1 (by simpa using h)
      · exact hb x hx'

theorem pairwise_stableSort {α : Type} {le : α → α → Bool}
    (htot : ∀ a b, le a b = true ∨ le b a = true)
    (htrans : ∀ a b c, le a b = true → le b c = true → le a c = true)
    (l : List α) :
    (stableSort le l).Pairwise (fun x y => le x y = true) := by
  induction l with
  | nil => simp [stableSort]
  | cons a as ih => exact pairwise_insertOrd htot htrans a ih

theorem stableSort_of_pairwise {α : Type} {le : α → α → Bool} :
    ∀ {l : List α}, l.Pairwise (fun x y => le x y = true) →
      stableSort le l = l := by
  intro l
  induction l with
  | nil => intro _; rfl
  | cons a as ih =>
    intro h
    rcases List.pairwise_cons.mp h with ⟨ha, has⟩
    rw [stableSort, ih has]
    cases as with
    | nil => rfl
    | cons b bs =>
      have hab : le a b = true := ha b (List.mem_cons_self _ _)
      simp [insertOrd, hab]

/-- A retrieval candidate handed to `_deduplicate_chunks`: a Python dict
whose optional fields are `Option` (absent key = `none`); `chunk.get(f, 0.0)`
is `Option.getD _ 0`. -/
structure NChunk where
  title : String
  timestamp : String
  content : String
  similarity : Option ℚ
  rerank_score : Option ℚ
  time_bonus : Option ℚ
  final_score : Option ℚ
  deriving Repr, DecidableEq

/-- The dedup key `(title, timestamp)`. -/
def nKey (c : NChunk) : String × String := (c.title, c.timestamp)

/-- The tiered recency bonus computed from
`days_diff = (policy_timestamp.date() - doc_dt.date()).days`. -/
def bonusOfDays (days : Int) : ℚ :=
  if days ≤ 365 then (1 / 10 : ℚ) * (1 - (days : ℚ) / 365)
  else if days ≤ 1095 then (3 / 100 : ℚ) * (1 - ((days : ℚ) - 365) / 730)
  else 0

/-- The `time_bonus` computation of `_deduplicate_chunks`.  `parseDate`
abstracts `datetime.fromisoformat(...).date()` as a day number: `none`
models an unparseable string (the swallowed exception).  `policyDate` is
`policy_timestamp.date()` (`none` models a falsy `policy_timestamp`); an
empty `timestamp` string is falsy, so it skips the whole computation. -/
def timeBonus (parseDate : String → Option Int) (policyDate : Option Int)
    (ts : String) : ℚ :=
  if ts ≠ "" ∧ policyDate.isSome then
    match policyDate, parseDate ts with
    | some pd, some d => bonusOfDays (pd - d)
    | _, _ => 0
  else 0

/-- The two field assignments `chunk['time_bonus'] = time_bonus` and
`chunk['final_score'] = chunk.get('rerank_score', 0.0) + time_bonus`. -/
def attachScores (parseDate : String → Option Int) (policyDate : Option Int)
    (c : NChunk) : NChunk :=
  let tb := timeBonus parseDate policyDate c.timestamp
  { c with time_bonus := some tb,
           final_score := some (c.rerank_score.getD 0 + tb) }

/-- One iteration of the dedup loop: the `seen` dict maps
`(title, timestamp)` to the (input position, candidate) kept so far; a later
candidate replaces the stored one only when its
`chunk.get('rerank_score', 0.0)` is strictly greater. -/
def seenStep (acc : List ((String × String) × Nat × NChunk))
    (ic : Nat × NChunk) : List ((String × String) × Nat × NChunk) :=
  match assocFind acc (nKey ic.2) with
  | none => acc ++ [(nKey ic.2, ic)]
  | some s =>
      if ic.2.rerank_score.getD 0 > s.2.rerank_score.getD 0 then
        assocReplace acc (nKey ic.2) ic
      else acc

/-- The `seen` dict after the whole dedup loop (entries in key-insertion
order, each remembering the input position of the kept candidate). -/
def dedupSeen (chunks : List NChunk) :
    List ((String × String) × Nat × NChunk) :=
  chunks.enum.foldl seenStep []

/-- The comparison of `results.sort(key=lambda x: x.get('final_score', 0.0),
reverse=True)`: stable descending order by final score. -/
def finalScoreDesc (a b : NChunk) : Bool :=
  b.final_score.getD 0 ≤ a.final_score.getD 0

/-- `_deduplicate_chunks(chunk_results, policy_timestamp, top_k)`: dedup by
`(title, timestamp)` keeping the highest `rerank_score`, attach
`time_bonus`/`final_score`, sort by `final_score` descending (stable),
return the first `top_k`. -/
def dedup (parseDate : String → Option Int) (policyDate : Option Int)
    (chunks : List NChunk) (topK : Nat) : List NChunk :=
  let results := (dedupSeen chunks).map
    (fun e => attachScores parseDate policyDate e.2.2)
  (stableSort finalScoreDesc results).take topK

/-- The caller's list after `_deduplicate_chunks` returns.  The function
loops over `seen.values()` assigning `chunk['time_bonus']` and
`chunk['final_score']` on those dict objects, so exactly the kept candidate
of each `(title, timestamp)` group is mutated in place; the list itself is
neither reordered nor resized. -/
def dedupCallerAfter (parseDate : String → Option Int)
    (policyDate : Option Int) (chunks : List NChunk) : List NChunk :=
  let seen := dedupSeen chunks
  chunks.enum.map (fun ic =>
    if seen.any (fun e => e.2.1 = ic.1) then
      attachScores parseDate policyDate ic.2
    else ic.2)

/-! ## `BCEReranker.rerank` (`src/utils/reranker.py`), enabled path -/

/-- A candidate dict handed to `BCEReranker.rerank` (only the fields the
function reads or writes). -/
structure RRCand where
  content : String
  similarity : Option ℚ
  rerank_score : Option ℚ
  original_rank : Option Nat
  deriving Repr, DecidableEq

/-- The loop `for i, result in enumerate(results): result['rerank_score'] =
float(scores[i]); result['original_rank'] = i + 1`.  `scoreFn` abstracts the
cross-encoder output `scores` (one score per input position). -/
def rerankAttach (scoreFn : Nat → ℚ) (results : List RRCand) : List RRCand :=
  results.enum.map (fun ic =>
    { ic.2 with rerank_score := some (scoreFn ic.1),
                original_rank := some (ic.1 + 1) })

/-- `results.sort(key=lambda x: x['rerank_score'], reverse=True)`. -/
def rerankScoreDesc (a b : RRCand) : Bool :=
  b.rerank_score.getD 0 ≤ a.rerank_score.getD 0

/-- `BCEReranker.rerank` on the enabled/successful path: attaches
`rerank_score` and `original_rank` to every input dict, sorts the caller's
list in place, and returns its first `top_k` entries.  First component: the
returned list; second component: the caller's list after the call. -/
def rerankEffect (scoreFn : Nat → ℚ) (results : List RRCand) (topK : Nat) :
    List RRCand × List RRCand :=
  let sorted := stableSort rerankScoreDesc (rerankAttach scoreFn results)
  (sorted.take topK, sorted)

/-! ### Association-list facts -/

theorem assocFind_eq_none_iff {κ β : Type} [DecidableEq κ]
    (l : List (κ × β)) (k : κ) :
    assocFind l k = none ↔ k ∉ l.map Prod.fst := by
  induction l with
  | nil => simp [assocFind]
  | cons p ps ih =>
    by_cases h : p.1 = k
    · simp [assocFind, h]
    · simp [assocFind, h, ih, Ne.symm h]

theorem assocFind_append {κ β : Type} [DecidableEq κ]
    (l l' : List (κ × β)) (k : κ) :
    assocFind (l ++ l') k =
      (assocFind l k).elim (assocFind l' k) some := by
  induction l with
  | nil => simp [assocFind]
  | cons p ps ih =>
    by_cases h : p.1 = k
    · simp [assocFind, h]
    · simp [assocFind, h, ih]

theorem assocReplace_map_fst {κ β : Type} [DecidableEq κ]
    (l : List (κ × β)) (k : κ) (v : β) :
    (assocReplace l k v).map Prod.fst = l.map Prod.fst := by
  induction l with
  | nil => simp [assocReplace]
  | cons p ps ih =>
    by_cases h : p.1 = k
    · simp [assocReplace, h]
    · simp [assocReplace, h, ih]

theorem mem_assocReplace {κ β : Type} [DecidableEq κ]
    {l : List (κ × β)} {k : κ} {v : β} {e : κ × β}
    (he : e ∈ assocReplace l k v) : e ∈ l ∨ e = (k, v) := by
  induction l with
  | nil => simp [assocReplace] at he
  | cons p ps ih =>
    by_cases h : p.1 = k
    · simp only [assocReplace, h, if_true, List.mem_cons] at he
      rcases he with h1 | h1
      · right; exact h1
      · left; exact List.mem_cons_of_mem _ h1
    · simp only [assocReplace, h, if_false, List.mem_cons] at he
      rcases he with h1 | h1
      · left; simp [h1]
      · rcases ih h1 with h2 | h2
        · left; exact List.mem_cons_of_mem _ h2
        · right; exact h2

theorem assocFind_assocReplace_self {κ β : Type} [DecidableEq κ]
    {l : List (κ × β)} {k : κ} {s : β} (h : assocFind l k = some s) (v : β) :
    assocFind (assocReplace l k v) k = some v := by
  induction l with
  | nil => simp [assocFind] at h
  | cons p ps ih =>
    by_cases hp : p.1 = k
    · simp [assocReplace, assocFind, hp]
    · simp only [assocFind, hp, if_false] at h
      simp [assocReplace, assocFind, hp, ih h]

theorem assocFind_assocReplace_ne {κ β : Type} [DecidableEq κ]
    (l : List (κ × β)) {k k' : κ} (hne : k' ≠ k) (v : β) :
    assocFind (assocReplace l k' v) k = assocFind l k := by
  induction l with
  | nil => simp [assocReplace]
  | cons p ps ih =>
    by_cases hp : p.1 = k'
    · simp [assocReplace, assocFind, hp, hne]
    · by_cases hk : p.1 = k
      · simp [assocReplace, assocFind, hp, hk, Ne.symm hne]
      · simp [assocReplace, assocFind, hp, hk, ih]

theorem assocFind_of_mem_nodup {κ β : Type} [DecidableEq κ]
    {l : List (κ × β)} {e : κ × β} (he : e ∈ l)
    (hnd : (l.map Prod.fst).Nodup) : assocFind l e.1 = some e.2 := by
  induction l with
  | nil => simp at he
  | cons p ps ih =>
    simp only [List.map_cons, List.nodup_cons] at hnd
    rcases List.mem_cons.mp he with h1 | h1
    · simp [assocFind, h1]
    · have hne : p.1 ≠ e.1 := by
        intro hEq
        exact hnd.1 (hEq ▸ List.mem_map_of_mem Prod.fst h1)
      simp [assocFind, hne, ih h1 hnd.2]

/-! ### Invariants of the `seen` fold -/

theorem seenStep_eq_of_none {acc : List ((String × String) × Nat × NChunk)}
    {ic : Nat × NChunk} (h : assocFind acc (nKey ic.2) = none) :
    seenStep acc ic = acc ++ [(nKey ic.2, ic)] := by
  unfold seenStep
  split
  · rfl
  · next s heq => rw [h] at heq; cases heq

theorem seenStep_eq_of_some {acc : List ((String × String) × Nat × NChunk)}
    {ic : Nat × NChunk} {s : Nat × NChunk}
    (h : assocFind acc (nKey ic.2) = some s) :
    seenStep acc ic =
      if ic.2.rerank_score.getD 0 > s.2.rerank_score.getD 0 then
        assocReplace acc (nKey ic.2) ic
      else acc := by
  unfold seenStep
  split
  · next heq => rw [h] at heq; cases heq
  · next s' heq =>
      rw [h] at heq
      injection heq with he
      subst he
      rfl

/-- After one `seenStep`, the entry stored at the processed candidate's key
has a `rerank_score` (defaulted to 0) at least that of the candidate. -/
theorem seenStep_find_self (acc : List ((String × String) × Nat × NChunk))
    (a : Nat × NChunk) :
    ∃ w, assocFind (seenStep acc a) (nKey a.2) = some w ∧
      a.2.rerank_score.getD 0 ≤ w.2.rerank_score.getD 0 := by
  cases hf : assocFind acc (nKey a.2) with
  | none =>
    refine ⟨a, ?_, le_refl _⟩
    rw [seenStep_eq_of_none hf, assocFind_append, hf]
    simp [assocFind]
  | some s =>
    rw [seenStep_eq_of_some hf]
    by_cases hgt : a.2.rerank_score.getD 0 > s.2.rerank_score.getD 0
    · simp only [hgt, if_true]
      exact ⟨a, assocFind_assocReplace_self hf a, le_refl _⟩
    · simp only [hgt, if_false]
      exact ⟨s, hf, le_of_not_lt hgt⟩

/-- `seenStep` does not disturb entries stored at other keys. -/
theorem seenStep_find_ne (acc : List ((String × String) × Nat × NChunk))
    (a : Nat × NChunk) {k : String × String} (hne : nKey a.2 ≠ k) :
    assocFind (seenStep acc a) k = assocFind acc k := by
  cases hf : assocFind acc (nKey a.2) with
  | none =>
    rw [seenStep_eq_of_none hf, assocFind_append]
    cases hk : assocFind acc k with
    | none => simp [assocFind, hne]
    | some s => simp
  | some s =>
    rw [seenStep_eq_of_some hf]
    by_cases hgt : a.2.rerank_score.getD 0 > s.2.rerank_score.getD 0
    · simp only [hgt, if_true]
      exact assocFind_assocReplace_ne acc hne a
    · simp [hgt]

/-- Along the fold, the score stored at any key never decreases. -/
theorem foldl_seenStep_mono (ps : List (Nat × NChunk)) :
    ∀ (acc : List ((String × String) × Nat × NChunk)) (k : String × String)
      (v : Nat × NChunk), assocFind acc k = some v →
      ∃ w, assocFind (ps.foldl seenStep acc) k = some w ∧
        v.2.rerank_score.getD 0 ≤ w.2.rerank_score.getD 0 := by
  induction ps with
  | nil => intro acc k v hv; exact ⟨v, hv, le_refl _⟩
  | cons a ps ih =>
    intro acc k v hv
    simp only [List.foldl_cons]
    by_cases hk : nKey a.2 = k
    · subst hk
      obtain ⟨w, hw, hle⟩ := seenStep_find_self acc a
      have hvw : v.2.rerank_score.getD 0 ≤ w.2.rerank_score.getD 0 := by
        rw [seenStep_eq_of_some hv] at hw
        by_cases hgt : a.2.rerank_score.getD 0 > v.2.rerank_score.getD 0
        · rw [if_pos hgt, assocFind_assocReplace_self hv a] at hw
          injection hw with hw'
          cases hw'
          exact le_of_lt hgt
        · rw [if_neg hgt, hv] at hw
          injection hw with hw'
          cases hw'
          exact le_refl _
      obtain ⟨w', hw', hle'⟩ := ih _ _ _ hw
      exact ⟨w', hw', le_trans hvw hle'⟩
    · obtain ⟨w', hw', hle'⟩ := ih (seenStep acc a) k v
        (by rw [seenStep_find_ne acc a hk]; exact hv)
      exact ⟨w', hw', hle'⟩

theorem foldl_seenStep_keys_nodup (ps : List (Nat × NChunk)) :
    ∀ acc, ((acc.map Prod.fst).Nodup) →
      (((ps.foldl seenStep acc).map Prod.fst).Nodup) := by
  induction ps with
  | nil => intro acc h; simpa using h
  | cons a ps ih =>
    intro acc h
    simp only [List.foldl_cons]
    apply ih
    cases hf : assocFind acc (nKey a.2) with
    | none =>
      rw [seenStep_eq_of_none hf]
      have hnotin : nKey a.2 ∉ acc.map Prod.fst :=
        (assocFind_eq_none_iff acc (nKey a.2)).mp hf
      simp only [List.map_append, List.map_cons, List.map_nil]
      rw [List.nodup_append]
      exact ⟨h, List.nodup_singleton _, by simpa using fun hmem => hnotin hmem⟩
    | some s =>
      rw [seenStep_eq_of_some hf]
      by_cases hgt : a.2.rerank_score.getD 0 > s.2.rerank_score.getD 0
      · rw [if_pos hgt, assocReplace_map_fst]; exact h
      · rw [if_neg hgt]; exact h

theorem mem_foldl_seenStep (ps : List (Nat × NChunk)) :
    ∀ acc e, e ∈ ps.foldl seenStep acc →
      e ∈ acc ∨ (e.2 ∈ ps ∧ nKey e.2.2 = e.1) := by
  induction ps with
  | nil => intro acc e he; left; simpa using he
  | cons a ps ih =>
    intro acc e he
    simp only [List.foldl_cons] at he
    rcases ih _ _ he with h1 | h1
    · cases hf : assocFind acc (nKey a.2) with
      | none =>
        rw [seenStep_eq_of_none hf] at h1
        rcases List.mem_append.mp h1 with h2 | h2
        · left; exact h2
        · right
          have : e = (nKey a.2, a) := by simpa using h2
          subst this
          exact ⟨List.mem_cons_self _ _, rfl⟩
      | some s =>
        rw [seenStep_eq_of_some hf] at h1
        by_cases hgt : a.2.rerank_score.getD 0 > s.2.rerank_score.getD 0
        · rw [if_pos hgt] at h1
          rcases mem_assocReplace h1 with h2 | h2
          · left; exact h2
          · right
            subst h2
            exact ⟨List.mem_cons_self _ _, rfl⟩
        · rw [if_neg hgt] at h1; left; exact h1
    · right; exact ⟨List.mem_cons_of_mem _ h1.1, h1.2⟩

/-- Each `seen` entry is keyed by the stored candidate's `(title, timestamp)`
and stores an input candidate. -/
theorem dedupSeen_entry {chunks : List NChunk} {e} (he : e ∈ dedupSeen chunks) :
    nKey e.2.2 = e.1 ∧ e.2.2 ∈ chunks := by
  rcases mem_foldl_seenStep chunks.enum [] e he with h | h
  · simp at h
  · refine ⟨h.2, ?_⟩
    have := List.mem_map_of_mem Prod.snd h.1
    rwa [List.enum_map_snd] at this

theorem dedupSeen_keys_nodup (chunks : List NChunk) :
    (((dedupSeen chunks).map Prod.fst).Nodup) :=
  foldl_seenStep_keys_nodup chunks.enum [] (by simp)

/-- The kept candidate of each `(title, timestamp)` group dominates every
input candidate with the same key on `rerank_score.getD 0`. -/
theorem dedupSeen_group_max {chunks : List NChunk} {e}
    (he : e ∈ dedupSeen chunks) :
    ∀ c' ∈ chunks, nKey c' = e.1 →
      c'.rerank_score.getD 0 ≤ e.2.2.rerank_score.getD 0 := by
  intro c' hc' hkey
  have hc'e : c' ∈ chunks.enum.map Prod.snd := by rwa [List.enum_map_snd]
  obtain ⟨p, hp, hpc⟩ := List.mem_map.mp hc'e
  obtain ⟨s, t, hst⟩ := List.append_of_mem hp
  have hsplit : dedupSeen chunks =
      t.foldl seenStep (seenStep (s.foldl seenStep []) p) := by
    rw [dedupSeen, hst, List.foldl_append, List.foldl_cons]
  obtain ⟨w, hw, hle⟩ := seenStep_find_self (s.foldl seenStep []) p
  obtain ⟨w', hw', hle'⟩ := foldl_seenStep_mono t _ _ _ hw
  have hkey' : nKey p.2 = e.1 := by rw [hpc, hkey]
  have hfinal : assocFind (dedupSeen chunks) e.1 = some w' := by
    rw [hsplit, ← hkey']; exact hw'
  have hfind_e : assocFind (dedupSeen chunks) e.1 = some e.2 :=
    assocFind_of_mem_nodup he (dedupSeen_keys_nodup chunks)
  rw [hfinal] at hfind_e
  injection hfind_e with hwe
  rw [← hwe, ← hpc]
  exact le_trans hle hle'

theorem attachScores_title (pd : String → Option Int) (t : Option Int)
    (c : NChunk) : (attachScores pd t c).title = c.title := rfl

theorem attachScores_timestamp (pd : String → Option Int) (t : Option Int)
    (c : NChunk) : (attachScores pd t c).timestamp = c.timestamp := rfl

theorem attachScores_rerank (pd : String → Option Int) (t : Option Int)
    (c : NChunk) : (attachScores pd t c).rerank_score = c.rerank_score := rfl

theorem attachScores_nKey (pd : String → Option Int) (t : Option Int)
    (c : NChunk) : nKey (attachScores pd t c) = nKey c := rfl

theorem attachScores_time_bonus (pd : String → Option Int) (t : Option Int)
    (c : NChunk) :
    (attachScores pd t c).time_bonus = some (timeBonus pd t c.timestamp) := rfl

theorem attachScores_final_score (pd : String → Option Int) (t : Option Int)
    (c : NChunk) :
    (attachScores pd t c).final_score =
      some (c.rerank_score.getD 0 + timeBonus pd t c.timestamp) := rfl

theorem attachScores_idem (pd : String → Option Int) (t : Option Int)
    (c : NChunk) :
    attachScores pd t (attachScores pd t c) = attachScores pd t c := rfl

/-- Every element of the output of `_deduplicate_chunks` is a `seen` entry's
candidate with `time_bonus` and `final_score` attached. -/
theorem mem_dedup {pd : String → Option Int} {pdate : Option Int}
    {chunks : List NChunk} {k : Nat} {c : NChunk}
    (hc : c ∈ dedup pd pdate chunks k) :
    ∃ e ∈ dedupSeen chunks, c = attachScores pd pdate e.2.2 := by
  unfold dedup at hc
  have h1 := List.mem_of_mem_take hc
  have h2 := (stableSort_perm finalScoreDesc _).mem_iff.mp h1
  obtain ⟨e, he, hec⟩ := List.mem_map.mp h2
  exact ⟨e, he, hec.symm⟩

/-! ### Claim theorems for the dedup/time-weighting contract -/

/-- The recency bonus exactly as the spec words it, as a function of the
reference date and the (optionally parsed) candidate date: three tiers with
breakpoints 365 and 1095 days, and no bonus for a missing or unparseable
timestamp. -/
def specTimeBonus (refDate : Int) (docDate : Option Int) : ℚ :=
  match docDate with
  | none => 0
  | some d =>
      let daysDiff := refDate - d
      if daysDiff ≤ 365 then (1 / 10 : ℚ) * (1 - (daysDiff : ℚ) / 365)
      else if daysDiff ≤ 1095 then
        (3 / 100 : ℚ) * (1 - ((daysDiff : ℚ) - 365) / 730)
      else 0

theorem timeBonus_eq_spec (pd : String → Option Int) (rp : Int) (ts : String)
    (hemp : pd "" = none) :
    timeBonus pd (some rp) ts = specTimeBonus rp (pd ts) := by
  by_cases hts : ts = ""
  · subst hts
    simp [timeBonus, hemp, specTimeBonus]
  · cases hpd : pd ts with
    | none => simp [timeBonus, hts, hpd, specTimeBonus]
    | some d => simp [timeBonus, hts, hpd, specTimeBonus, bonusOfDays]

/-- C2: every candidate surviving `_deduplicate_chunks` carries the tiered
time bonus of the spec: with `days_diff = reference date − candidate date`,
`0.1·(1 − days_diff/365)` when `days_diff ≤ 365`, else
`0.03·(1 − (days_diff − 365)/730)` when `days_diff ≤ 1095`, else `0`; a
missing (empty) or unparseable timestamp yields bonus `0`.  (`parseDate`
abstracts the `datetime.fromisoformat` attempts; the hypothesis says the
empty string does not parse.) -/
theorem dedup_time_bonus_formula (pd : String → Option Int) (rp : Int)
    (chunks : List NChunk) (topK : Nat) (hemp : pd "" = none) :
    ∀ c ∈ dedup pd (some rp) chunks topK,
      c.time_bonus = some (specTimeBonus rp (pd c.timestamp)) := by
  intro c hc
  obtain ⟨e, -, rfl⟩ := mem_dedup hc
  rw [attachScores_time_bonus, attachScores_timestamp]
  rw [timeBonus_eq_spec pd rp _ hemp]

/-- Witness for C2: a three-candidate run exercising the first tier
(30 days), the second tier (400 days) and an unparseable timestamp. -/
theorem dedup_time_bonus_formula_witness :
    (⟨"A", "a", "x", none, some 1, some ((1 / 10 : ℚ) * (1 - 30 / 365)),
        some (1 + (1 / 10 : ℚ) * (1 - 30 / 365))⟩ : NChunk).time_bonus =
      some (specTimeBonus 1000
        ((fun s => if s = "a" then some 970 else
            if s = "b" then some 600 else none) "a")) :=
  dedup_time_bonus_formula
    (fun s => if s = "a" then some 970 else if s = "b" then some 600 else none)
    1000
    [⟨"A", "a", "x", none, some 1, none, none⟩,
     ⟨"B", "b", "y", none, some 1, none, none⟩,
     ⟨"C", "zzz", "w", none, some 1, none, none⟩] 5
    (by decide)
    ⟨"A", "a", "x", none, some 1, some ((1 / 10 : ℚ) * (1 - 30 / 365)),
        some (1 + (1 / 10 : ℚ) * (1 - 30 / 365))⟩
    (by norm_num +decide [dedup, dedupSeen, seenStep, assocFind, attachScores,
      timeBonus, bonusOfDays, stableSort, insertOrd, finalScoreDesc,
      List.enum, List.enumFrom, nKey])

/-- Counterexample to C3 as stated: two candidates share `(title, timestamp)`
and have no `rerank_score`; the code keeps the *first* one (similarity 1/10),
not the one with the highest similarity (9/10), and its `final_score` is
`0 + time_bonus = 0`, not `similarity + time_bonus`:
`chunk.get('rerank_score', 0.0)` never falls back to `similarity`. -/
theorem dedup_similarity_fallback_cex :
    (dedup (fun _ => none) none
        [⟨"T", "t", "x", some (1 / 10), none, none, none⟩,
         ⟨"T", "t", "y", some (9 / 10), none, none, none⟩] 10).map
        (fun c => c.similarity) = [some (1 / 10)] ∧
    (dedup (fun _ => none) none
        [⟨"T", "t", "x", some (1 / 10), none, none, none⟩,
         ⟨"T", "t", "y", some (9 / 10), none, none, none⟩] 10).map
        (fun c => c.final_score) = [some 0] ∧
    (1 / 10 : ℚ) ≠ 9 / 10 ∧ (0 : ℚ) ≠ 9 / 10 := by
  refine ⟨?_, ?_, by norm_num, by norm_num⟩ <;>
    norm_num +decide [dedup, dedupSeen, seenStep, assocFind, attachScores,
      timeBonus, bonusOfDays, stableSort, insertOrd, finalScoreDesc,
      List.enum, List.enumFrom, nKey]

/-- C3 amended: within each `(title, timestamp)` group the kept candidate is
the one with the highest `rerank_score` *with a missing score treated as 0*
(ties keep the earliest; `similarity` is never consulted), and every returned
candidate's `final_score` equals `rerank_score.getD 0 + time_bonus`. -/
theorem dedup_rerank_default_semantics (pd : String → Option Int)
    (pdate : Option Int) (chunks : List NChunk) (topK : Nat) :
    ∀ c ∈ dedup pd pdate chunks topK,
      c.final_score =
        some (c.rerank_score.getD 0 + timeBonus pd pdate c.timestamp) ∧
      ∀ c' ∈ chunks, nKey c' = nKey c →
        c'.rerank_score.getD 0 ≤ c.rerank_score.getD 0 := by
  intro c hc
  obtain ⟨e, he, rfl⟩ := mem_dedup hc
  refine ⟨rfl, ?_⟩
  intro c' hc' hkey
  rw [attachScores_rerank]
  have hkey' : nKey c' = e.1 := by
    rw [hkey, attachScores_nKey, (dedupSeen_entry he).1]
  exact dedupSeen_group_max he c' hc' hkey'

/-- Witness for the amended C3. -/
theorem dedup_rerank_default_semantics_witness :
    (⟨"T", "t", "y", none, some 2, some 0, some 2⟩ : NChunk).final_score
        = some ((⟨"T", "t", "y", none, some 2, some 0, some 2⟩ :
              NChunk).rerank_score.getD 0
            + timeBonus (fun _ => none) none
              (⟨"T", "t", "y", none, some 2, some 0, some 2⟩ :
                NChunk).timestamp) ∧
    (⟨"T", "t", "x", none, some 1, none, none⟩ : NChunk).rerank_score.getD 0
      ≤ (⟨"T", "t", "y", none, some 2, some 0, some 2⟩ :
          NChunk).rerank_score.getD 0 := by
  have h := dedup_rerank_default_semantics (fun _ => none) none
      [⟨"T", "t", "x", none, some 1, none, none⟩,
       ⟨"T", "t", "y", none, some 2, none, none⟩] 5
      ⟨"T", "t", "y", none, some 2, some 0, some 2⟩
      (by norm_num +decide [dedup, dedupSeen, seenStep, assocFind,
        attachScores, timeBonus, bonusOfDays, stableSort, insertOrd,
        finalScoreDesc, List.enum, List.enumFrom, nKey])
  exact ⟨h.1, h.2 ⟨"T", "t", "x", none, some 1, none, none⟩
    (List.mem_cons_self _ _) rfl⟩

/-- Counterexample to C4 as stated: with identical base scores, the
candidate 365 days old (closer) gets bonus `0.1·(1 − 365/365) = 0`, while the
one 366 days old (farther) falls into the second tier and gets
`0.03·(1 − 1/730) > 0`: the farther candidate's `final_score` is strictly
higher and it is ranked first by `_deduplicate_chunks`. -/
theorem time_bonus_monotonicity_cex :
    ((attachScores
        (fun s => if s = "a" then some 635 else
          if s = "b" then some 634 else none) (some 1000)
        ⟨"TA", "a", "x", none, some 1, none, none⟩).final_score.getD 0
      < (attachScores
        (fun s => if s = "a" then some 635 else
          if s = "b" then some 634 else none) (some 1000)
        ⟨"TB", "b", "y", none, some 1, none, none⟩).final_score.getD 0) ∧
    (dedup (fun s => if s = "a" then some 635 else
        if s = "b" then some 634 else none) (some 1000)
      [⟨"TA", "a", "x", none, some 1, none, none⟩,
       ⟨"TB", "b", "y", none, some 1, none, none⟩] 10).map
      (fun c => c.timestamp) = ["b", "a"] := by
  constructor <;>
    norm_num +decide [dedup, dedupSeen, seenStep, assocFind, attachScores,
      timeBonus, bonusOfDays, stableSort, insertOrd, finalScoreDesc,
      List.enum, List.enumFrom, nKey]

/-- The tiered bonus is antitone in `days_diff` as long as the two values do
not straddle the 365-day boundary. -/
theorem bonusOfDays_anti (da db : Int) (hle : da ≤ db)
    (htier : db ≤ 365 ∨ 365 < da) : bonusOfDays db ≤ bonusOfDays da := by
  unfold bonusOfDays
  rcases htier with h1 | h2
  · rw [if_pos (le_trans hle h1), if_pos h1]
    have hc : (da : ℚ) ≤ (db : ℚ) := by exact_mod_cast hle
    linarith
  · rw [if_neg (show ¬db ≤ 365 by omega), if_neg (show ¬da ≤ 365 by omega)]
    by_cases hda2 : da ≤ 1095
    · rw [if_pos hda2]
      by_cases hdb2 : db ≤ 1095
      · rw [if_pos hdb2]
        have hc : (da : ℚ) ≤ (db : ℚ) := by exact_mod_cast hle
        linarith
      · rw [if_neg hdb2]
        have h1095 : (da : ℚ) ≤ 1095 := by exact_mod_cast hda2
        have hnn : (0 : ℚ) ≤ 1 - ((da : ℚ) - 365) / 730 := by linarith
        exact mul_nonneg (by norm_num) hnn
    · rw [if_neg hda2, if_neg (show ¬db ≤ 1095 by omega)]

/-- C4 amended: for two candidates processed by `_deduplicate_chunks` with
identical base scores and parseable timestamps, if candidate `a` is closer
(`days_diff` `da ≤ db`) and the two day differences do not straddle the
365-day tier boundary (`db ≤ 365` or `365 < da`), then `a`'s `final_score`
is at least `b`'s.  (At the boundary itself the bonus jumps from
`0.1·(1−365/365) = 0` at 365 days up to `0.03·(1−1/730)` at 366 days, so the
unrestricted claim fails.) -/
theorem time_bonus_same_tier_mono (pd : String → Option Int) (rp : Int)
    (a b : NChunk) (da db : Int)
    (hbase : a.rerank_score.getD 0 = b.rerank_score.getD 0)
    (hta : a.timestamp ≠ "") (htb : b.timestamp ≠ "")
    (hpa : pd a.timestamp = some (rp - da))
    (hpb : pd b.timestamp = some (rp - db))
    (hle : da ≤ db) (htier : db ≤ 365 ∨ 365 < da) :
    (attachScores pd (some rp) b).final_score.getD 0 ≤
      (attachScores pd (some rp) a).final_score.getD 0 := by
  have hda : rp - (rp - da) = da := by omega
  have hdb : rp - (rp - db) = db := by omega
  have ha : timeBonus pd (some rp) a.timestamp = bonusOfDays da := by
    simp [timeBonus, hta, hpa, hda]
  have hb : timeBonus pd (some rp) b.timestamp = bonusOfDays db := by
    simp [timeBonus, htb, hpb, hdb]
  simp only [attachScores_final_score, Option.getD_some, ha, hb, hbase]
  exact add_le_add_left (bonusOfDays_anti da db hle htier) _

/-- Witness for the amended C4: 10 days old vs 20 days old, same tier. -/
theorem time_bonus_same_tier_mono_witness :
    (attachScores (fun s => if s = "a" then some 990 else
        if s = "b" then some 980 else none) (some 1000)
      ⟨"TB", "b", "y", none, some 1, none, none⟩).final_score.getD 0 ≤
    (attachScores (fun s => if s = "a" then some 990 else
        if s = "b" then some 980 else none) (some 1000)
      ⟨"TA", "a", "x", none, some 1, none, none⟩).final_score.getD 0 :=
  time_bonus_same_tier_mono
    (fun s => if s = "a" then some 990 else if s = "b" then some 980 else none)
    1000 ⟨"TA", "a", "x", none, some 1, none, none⟩
    ⟨"TB", "b", "y", none, some 1, none, none⟩ 10 20 rfl
    (by decide) (by decide) (by decide) (by decide) (by decide)
    (Or.inl (by decide))

theorem finalScoreDesc_iff (a b : NChunk) :
    finalScoreDesc a b = true ↔ b.final_score.getD 0 ≤ a.final_score.getD 0 := by
  simp [finalScoreDesc]

theorem finalScoreDesc_total (a b : NChunk) :
    finalScoreDesc a b = true ∨ finalScoreDesc b a = true := by
  rw [finalScoreDesc_iff, finalScoreDesc_iff]
  exact le_total _ _

theorem finalScoreDesc_trans (a b c : NChunk)
    (h1 : finalScoreDesc a b = true) (h2 : finalScoreDesc b c = true) :
    finalScoreDesc a c = true := by
  rw [finalScoreDesc_iff] at *
  exact le_trans h2 h1

/-- The keys of the candidates returned by `_deduplicate_chunks` are
pairwise distinct. -/
theorem dedup_keys_nodup (pd : String → Option Int) (pdate : Option Int)
    (chunks : List NChunk) (topK : Nat) :
    ((dedup pd pdate chunks topK).map nKey).Nodup := by
  have hbase : (((dedupSeen chunks).map
      (fun e => attachScores pd pdate e.2.2)).map nKey).Nodup := by
    rw [List.map_map]
    have h1 : (dedupSeen chunks).map (nKey ∘ fun e => attachScores pd pdate e.2.2)
        = (dedupSeen chunks).map Prod.fst := by
      apply List.map_congr_left
      intro e he
      simp only [Function.comp_apply, attachScores_nKey]
      exact (dedupSeen_entry he).1
    rw [h1]
    exact dedupSeen_keys_nodup chunks
  have hperm := (stableSort_perm finalScoreDesc
    ((dedupSeen chunks).map (fun e => attachScores pd pdate e.2.2))).map nKey
  have hsorted : ((stableSort finalScoreDesc ((dedupSeen chunks).map
      (fun e => attachScores pd pdate e.2.2))).map nKey).Nodup :=
    hperm.nodup_iff.mpr hbase
  exact hsorted.sublist ((List.take_sublist _ _).map nKey)

/-- The output of `_deduplicate_chunks` is sorted: each candidate's
`final_score` dominates all later ones. -/
theorem dedup_pairwise (pd : String → Option Int) (pdate : Option Int)
    (chunks : List NChunk) (topK : Nat) :
    (dedup pd pdate chunks topK).Pairwise
      (fun x y => finalScoreDesc x y = true) := by
  unfold dedup
  dsimp only
  exact List.Pairwise.sublist (List.take_sublist _ _)
    (pairwise_stableSort finalScoreDesc_total finalScoreDesc_trans _)

theorem foldl_seenStep_fresh (ps : List (Nat × NChunk)) :
    ∀ acc, ((ps.map (fun p => nKey p.2)).Nodup) →
      (∀ p ∈ ps, assocFind acc (nKey p.2) = none) →
      ps.foldl seenStep acc = acc ++ ps.map (fun p => (nKey p.2, p)) := by
  induction ps with
  | nil => intro acc _ _; simp
  | cons a ps ih =>
    intro acc hnd hfresh
    simp only [List.foldl_cons]
    rw [seenStep_eq_of_none (hfresh a (List.mem_cons_self _ _))]
    rw [List.map_cons] at hnd
    rcases List.nodup_cons.mp hnd with ⟨hna, hnd'⟩
    rw [ih (acc ++ [(nKey a.2, a)]) hnd']
    · simp
    · intro p hp
      rw [assocFind_append, hfresh p (List.mem_cons_of_mem _ hp)]
      have hne : nKey a.2 ≠ nKey p.2 := by
        intro hEq
        exact hna (hEq ▸ List.mem_map_of_mem (fun p => nKey p.2) hp)
      simp [assocFind, hne]

/-- On a candidate list with pairwise-distinct keys the dedup pass keeps
everything, in order. -/
theorem dedupSeen_of_nodup {l : List NChunk} (h : (l.map nKey).Nodup) :
    dedupSeen l = l.enum.map (fun p => (nKey p.2, p)) := by
  unfold dedupSeen
  rw [foldl_seenStep_fresh l.enum []]
  · simp
  · have : l.enum.map (fun p => nKey p.2) = l.map nKey := by
      have := congrArg (List.map nKey) (List.enum_map_snd l)
      rwa [List.map_map] at this
    rw [this]; exact h
  · intro p _; rfl

/-- Every returned candidate is fixed by a second score attachment. -/
theorem attach_fixed_of_mem_dedup {pd : String → Option Int}
    {pdate : Option Int} {chunks : List NChunk} {topK : Nat} {c : NChunk}
    (hc : c ∈ dedup pd pdate chunks topK) :
    attachScores pd pdate c = c := by
  obtain ⟨e, -, rfl⟩ := mem_dedup hc
  exact attachScores_idem pd pdate e.2.2

/-- C5: `_deduplicate_chunks` is idempotent — run a second time on its own
output with the same `policy_timestamp` and the same `top_k`, it returns
exactly the same list. -/
theorem dedup_idempotent (pd : String → Option Int) (pdate : Option Int)
    (chunks : List NChunk) (topK : Nat) :
    dedup pd pdate (dedup pd pdate chunks topK) topK
      = dedup pd pdate chunks topK := by
  have hnd : ((dedup pd pdate chunks topK).map nKey).Nodup :=
    dedup_keys_nodup pd pdate chunks topK
  have hres : (dedupSeen (dedup pd pdate chunks topK)).map
      (fun e => attachScores pd pdate e.2.2) = dedup pd pdate chunks topK := by
    rw [dedupSeen_of_nodup hnd, List.map_map]
    have h1 : ((dedup pd pdate chunks topK).enum.map
        ((fun e => attachScores pd pdate e.2.2) ∘ (fun p => (nKey p.2, p))))
        = (dedup pd pdate chunks topK).enum.map
            ((fun c => attachScores pd pdate c) ∘ Prod.snd) := rfl
    rw [h1, ← List.map_map, List.enum_map_snd]
    calc (dedup pd pdate chunks topK).map (fun c => attachScores pd pdate c)
        = (dedup pd pdate chunks topK).map (fun c => c) :=
          List.map_congr_left (fun c hc => attach_fixed_of_mem_dedup hc)
      _ = dedup pd pdate chunks topK := List.map_id' _
  have hlen : (dedup pd pdate chunks topK).length ≤ topK := by
    unfold dedup
    simp [List.length_take]
  show (stableSort finalScoreDesc
      ((dedupSeen (dedup pd pdate chunks topK)).map
        (fun e => attachScores pd pdate e.2.2))).take topK
    = dedup pd pdate chunks topK
  rw [hres, stableSort_of_pairwise (dedup_pairwise pd pdate chunks topK)]
  exact List.take_of_length_le hlen

/-! ### Constructor validation (C8) and mutation effects (C9) -/

/-- Counterexample to C8: constructing the chunker with
`overlap = target_size = 800` (violating `overlap < target_size`) succeeds —
`__init__` just stores the four numbers and raises nothing. -/
theorem chunker_init_no_validation_cex :
    (policyChunkerInit 800 1000 800 1200).isSome = true := rfl

/-- C8 amended: `PolicyDocumentChunker.__init__` performs no validation:
every parameter combination — including `overlap ≥ target_size`,
`target_size > absolute_max`, or any other violation of
`overlap < target_size ≤ max_size ≤ absolute_max` — is accepted and stored
verbatim; no configuration error is ever raised at construction time. -/
theorem chunker_init_accepts_everything (t m o a : Nat) :
    policyChunkerInit t m o a = some ⟨t, m, o, a⟩ := rfl

/-- Fields of a dedup candidate untouched by `_deduplicate_chunks`
(everything except `time_bonus` and `final_score`). -/
def nFrameEq (a b : NChunk) : Prop :=
  a.title = b.title ∧ a.timestamp = b.timestamp ∧ a.content = b.content ∧
    a.similarity = b.similarity ∧ a.rerank_score = b.rerank_score

/-- Fields of a reranker candidate untouched by `BCEReranker.rerank`
(everything except `rerank_score` and `original_rank`). -/
def rrFrameEq (a b : RRCand) : Prop :=
  a.content = b.content ∧ a.similarity = b.similarity

theorem forall₂_enumFrom_map {α β : Type} (R : β → α → Prop)
    (f : Nat × α → β) (h : ∀ i a, R (f (i, a)) a) :
    ∀ (l : List α) (n : Nat), List.Forall₂ R ((l.enumFrom n).map f) l := by
  intro l
  induction l with
  | nil => intro n; simp
  | cons a as ih =>
    intro n
    rw [List.enumFrom_cons, List.map_cons]
    exact List.Forall₂.cons (h n a) (ih (n + 1))

/-- Counterexample to C9 as stated: both functions mutate their inputs.
After `_deduplicate_chunks`, the caller's surviving dict has gained
`time_bonus`/`final_score` fields; after `BCEReranker.rerank`, every input
dict has gained `rerank_score`/`original_rank` and the caller's list was
sorted in place. -/
theorem dedup_rerank_mutation_cex :
    dedupCallerAfter (fun _ => none) (some 0)
        [⟨"T", "", "x", some 1, none, none, none⟩]
      ≠ [⟨"T", "", "x", some 1, none, none, none⟩] ∧
    (rerankEffect (fun _ => 5) [⟨"c", some 1, none, none⟩] 10).2
      ≠ [⟨"c", some 1, none, none⟩] := by
  constructor <;>
    norm_num +decide [dedupCallerAfter, dedupSeen, seenStep, assocFind,
      attachScores, timeBonus, rerankEffect, rerankAttach, stableSort,
      insertOrd, rerankScoreDesc, List.enum, List.enumFrom, nKey]

/-- C9 amended: the mutations are bounded.  `_deduplicate_chunks` leaves the
caller's list with the same candidates in the same order, each record
altered only in `time_bonus` and `final_score` (attached to the surviving
representative of each key group); `BCEReranker.rerank` leaves the caller's
list a permutation (in-place sort) of the input records with
`rerank_score`/`original_rank` attached, each altered in no other field. -/
theorem dedup_rerank_mutation_frame :
    (∀ (pd : String → Option Int) (pdate : Option Int) (chunks : List NChunk),
      List.Forall₂ nFrameEq (dedupCallerAfter pd pdate chunks) chunks) ∧
    (∀ (sf : Nat → ℚ) (results : List RRCand) (topK : Nat),
      ((rerankEffect sf results topK).2).Perm (rerankAttach sf results) ∧
      List.Forall₂ rrFrameEq (rerankAttach sf results) results) := by
  constructor
  · intro pd pdate chunks
    unfold dedupCallerAfter
    dsimp only
    show List.Forall₂ nFrameEq ((chunks.enumFrom 0).map _) chunks
    apply forall₂_enumFrom_map
    intro i a
    dsimp only
    split
    · exact ⟨rfl, rfl, rfl, rfl, rfl⟩
    · exact ⟨rfl, rfl, rfl, rfl, rfl⟩
  · intro sf results topK
    constructor
    · exact stableSort_perm rerankScoreDesc (rerankAttach sf results)
    · unfold rerankAttach
      show List.Forall₂ rrFrameEq ((results.enumFrom 0).map _) results
      apply forall₂_enumFrom_map
      intro i a
      exact ⟨rfl, rfl⟩

/-! ## Document-level merge: `merge_chunks_by_doc_id`
(`src/agents/enhanced_rag_agent.py`) -/

/-- Python `str.strip()` on a `String`. -/
def pyStrip (s : String) : String := String.mk (stripT s.toList)

/-- A chunk-level hit handed to `merge_chunks_by_doc_id` (a Python dict;
absent keys are `none`). -/
structure RChunk where
  chunk_id : Option String
  doc_id : Option String
  content : String
  similarity : Option ℚ
  chunk_index : Option Int
  title : String
  timestamp : String
  industries : String
  investment_relevance : String
  report_series : Option String
  deriving Repr, DecidableEq

/-- A consolidated document produced by `merge_chunks_by_doc_id`. -/
structure MergedDoc where
  doc_id : String
  title : String
  timestamp : String
  industries : String
  investment_relevance : String
  report_series : String
  content : String
  chunk_count : Nat
  avg_similarity : ℚ
  similarity : ℚ
  chunks : List RChunk
  deriving Repr, DecidableEq

/-- The grouping test `if doc_id and str(doc_id).strip():` — present,
nonempty, and not whitespace-only. -/
def usableDocId : Option String → Bool
  | none => false
  | some s => ¬s = "" ∧ ¬pyStrip s = ""

/-- `docs_by_id[doc_id].append(chunk)` on a `defaultdict(list)`: append to
the existing group, else open a new group at the end (insertion order). -/
def assocAppend {κ β : Type} [DecidableEq κ] :
    List (κ × List β) → κ → β → List (κ × List β)
  | [], k, v => [(k, [v])]
  | p :: ps, k, v =>
      if p.1 = k then (p.1, p.2 ++ [v]) :: ps else p :: assocAppend ps k v

/-- The first loop of `merge_chunks_by_doc_id`: split the input into
`docs_by_id` (first component) and `chunks_without_doc_id` (second). -/
def groupStep (st : List (String × List RChunk) × List RChunk) (c : RChunk) :
    List (String × List RChunk) × List RChunk :=
  match c.doc_id with
  | some d =>
      if ¬d = "" ∧ ¬pyStrip d = "" then (assocAppend st.1 d c, st.2)
      else (st.1, st.2 ++ [c])
  | none => (st.1, st.2 ++ [c])

/-- Within-group `unique_chunks` dedup keyed by `chunk.get('chunk_id')`:
first occurrence wins unless a later duplicate has strictly higher
`similarity`. -/
def dedupByChunkId (cs : List RChunk) : List RChunk :=
  (cs.foldl (fun acc c =>
    match assocFind acc c.chunk_id with
    | none => acc ++ [(c.chunk_id, c)]
    | some s =>
        if c.similarity.getD 0 > s.similarity.getD 0 then
          assocReplace acc c.chunk_id c
        else acc) []).map Prod.snd

/-- `doc_chunks.sort(key=lambda x: x.get('chunk_index', 0))`. -/
def chunkIndexAsc (a b : RChunk) : Bool :=
  a.chunk_index.getD 0 ≤ b.chunk_index.getD 0

/-- The content-concatenation loop
(`merged_content += f"{content}\n\n"` for nonempty contents, then
`.strip()`). -/
def concatContents (cs : List RChunk) : String :=
  pyStrip (cs.foldl
    (fun acc c => if ¬c.content = "" then acc ++ c.content ++ "\n\n" else acc)
    "")

/-- `sum(similarities)/len(similarities) if similarities else 0` over
`chunk.get('similarity', 0)`. -/
def avgSim (cs : List RChunk) : ℚ :=
  if cs = [] then 0
  else (cs.map (fun c => c.similarity.getD 0)).sum / cs.length

/-- One merged document built from a `docs_by_id` group. -/
def mkMergedFromGroup (d : String) (docChunks : List RChunk) : MergedDoc :=
  let dc := stableSort chunkIndexAsc (dedupByChunkId docChunks)
  let fc := dc.headD
    ⟨none, none, "", none, none, "", "", "", "", none⟩
  { doc_id := d
    title := fc.title
    timestamp := fc.timestamp
    industries := fc.industries
    investment_relevance := fc.investment_relevance
    report_series := fc.report_series.getD "N/A"
    content := concatContents dc
    chunk_count := dc.length
    avg_similarity := avgSim dc
    similarity := avgSim dc
    chunks := dc }

/-- The record built for each chunk without a usable `doc_id`
(`'doc_id': chunk.get('chunk_id', '')`, `chunk_count` 1, averages equal to
the chunk's own similarity). -/
def mkSingleton (c : RChunk) : MergedDoc :=
  { doc_id := c.chunk_id.getD ""
    title := c.title
    timestamp := c.timestamp
    industries := c.industries
    investment_relevance := c.investment_relevance
    report_series := c.report_series.getD "N/A"
    content := c.content
    chunk_count := 1
    avg_similarity := c.similarity.getD 0
    similarity := c.similarity.getD 0
    chunks := [c] }

/-- `merged_docs` before the by-`avg_similarity` sort: the `docs_by_id`
groups in insertion order followed by the singleton records of the chunks
without a usable `doc_id`. -/
def mergedPass1 (chunks : List RChunk) : List MergedDoc :=
  let st := chunks.foldl groupStep ([], [])
  st.1.map (fun g => mkMergedFromGroup g.1 g.2) ++ st.2.map mkSingleton

/-- `merged_docs.sort(key=lambda x: x.get('avg_similarity', 0),
reverse=True)`. -/
def avgSimDesc (a b : MergedDoc) : Bool :=
  b.avg_similarity ≤ a.avg_similarity

/-- `{c.get('chunk_id'): c for c in ...}`: a dict comprehension — a later
entry with the same key replaces the value at the key's first position. -/
def toChunkDict (cs : List RChunk) :
    List (Option String × RChunk) :=
  cs.foldl (fun acc c =>
    if (assocFind acc c.chunk_id).isSome then assocReplace acc c.chunk_id c
    else acc ++ [(c.chunk_id, c)]) []

/-- `{**existing_chunks, **new_chunks}`: existing keys keep their position
(values overridden by the new dict), genuinely new keys are appended. -/
def dictUnion (ex nw : List (Option String × RChunk)) :
    List (Option String × RChunk) :=
  nw.foldl (fun acc p =>
    if (assocFind acc p.1).isSome then assocReplace acc p.1 p.2
    else acc ++ [p]) ex

/-- The defensive second-pass merge of two documents that collided on the
stripped `doc_id`. -/
def mergeTwo (d : String) (existing doc : MergedDoc) : MergedDoc :=
  let allChunks := dictUnion (toChunkDict existing.chunks)
    (toChunkDict doc.chunks)
  let allVals := allChunks.map Prod.snd
  let sortedVals := stableSort chunkIndexAsc allVals
  let avg := if allVals = [] then 0
    else (allVals.map (fun c => c.similarity.getD 0)).sum / allVals.length
  { doc_id := d
    title := existing.title
    timestamp := existing.timestamp
    industries := existing.industries
    investment_relevance := existing.investment_relevance
    report_series := existing.report_series
    content := concatContents sortedVals
    chunk_count := allVals.length
    avg_similarity := avg
    similarity := avg
    chunks := allVals }

/-- One step of the second-pass `unique_docs` loop: key on the stripped
`doc_id` (documents whose stripped id is empty are silently dropped). -/
def pass2Step (acc : List (String × MergedDoc)) (doc : MergedDoc) :
    List (String × MergedDoc) :=
  let d := pyStrip doc.doc_id
  if d = "" then acc
  else
    match assocFind acc d with
    | none => acc ++ [(d, doc)]
    | some ex => assocReplace acc d (mergeTwo d ex doc)

/-- `EnhancedRAGAgent.merge_chunks_by_doc_id`. -/
def mergeChunksByDocId (chunks : List RChunk) : List MergedDoc :=
  if chunks = [] then []
  else
    let md := stableSort avgSimDesc (mergedPass1 chunks)
    let uniq := md.foldl pass2Step []
    stableSort avgSimDesc (uniq.map Prod.snd)

/-! ### Completeness facts about the grouping pass -/

theorem assocAppend_join_perm (l : List (String × List RChunk)) (k : String)
    (v : RChunk) :
    (((assocAppend l k v).map Prod.snd).flatten).Perm
      ((l.map Prod.snd).flatten ++ [v]) := by
  induction l with
  | nil => simp [assocAppend]
  | cons p ps ih =>
    by_cases h : p.1 = k
    · simp only [assocAppend, h, if_true, List.map_cons, List.flatten_cons]
      rw [List.append_assoc, List.append_assoc]
      exact List.Perm.append_left p.2 List.perm_append_comm
    · simp only [assocAppend, h, if_false, List.map_cons, List.flatten_cons]
      rw [List.append_assoc]
      exact List.Perm.append_left p.2 ih

theorem groupStep_join_perm (st : List (String × List RChunk) × List RChunk)
    (c : RChunk) :
    ((((groupStep st c).1.map Prod.snd).flatten ++ (groupStep st c).2)).Perm
      (((st.1.map Prod.snd).flatten ++ st.2) ++ [c]) := by
  unfold groupStep
  cases hd : c.doc_id with
  | none =>
    simp only
    rw [← List.append_assoc]
  | some d =>
    by_cases h : ¬d = "" ∧ ¬pyStrip d = ""
    · simp only [h, if_true]
      refine (List.Perm.append_right st.2 (assocAppend_join_perm st.1 d c)).trans ?_
      rw [List.append_assoc, List.append_assoc]
      exact List.Perm.append_left _ List.perm_append_comm
    · simp only [h, if_false]
      rw [← List.append_assoc]

theorem groupStep_foldl_perm (cs : List RChunk) :
    ∀ st, ((((cs.foldl groupStep st).1.map Prod.snd).flatten
        ++ (cs.foldl groupStep st).2)).Perm
      (((st.1.map Prod.snd).flatten ++ st.2) ++ cs) := by
  induction cs with
  | nil => intro st; simp
  | cons c cs ih =>
    intro st
    simp only [List.foldl_cons]
    refine (ih (groupStep st c)).trans ?_
    refine (List.Perm.append_right cs (groupStep_join_perm st c)).trans ?_
    rw [List.append_assoc, List.singleton_append]

/-- The grouping loop partitions the input: all group members together with
the no-`doc_id` leftovers are a permutation of the input. -/
theorem group_partition_perm (chunks : List RChunk) :
    (((chunks.foldl groupStep ([], [])).1.map Prod.snd).flatten
      ++ (chunks.foldl groupStep ([], [])).2).Perm chunks := by
  simpa using groupStep_foldl_perm chunks ([], [])

theorem mem_assocAppend {l : List (String × List RChunk)} {k : String}
    {v : RChunk} {p : String × List RChunk}
    (hp : p ∈ assocAppend l k v) : p.1 = k ∨ p ∈ l := by
  induction l with
  | nil =>
    simp only [assocAppend, List.mem_singleton] at hp
    left; rw [hp]
  | cons q qs ih =>
    by_cases h : q.1 = k
    · simp only [assocAppend, h, if_true, List.mem_cons] at hp
      rcases hp with h1 | h1
      · left; rw [h1]
      · right; exact List.mem_cons_of_mem _ h1
    · simp only [assocAppend, h, if_false, List.mem_cons] at hp
      rcases hp with h1 | h1
      · right; rw [h1]; exact List.mem_cons_self _ _
      · rcases ih h1 with h2 | h2
        · left; exact h2
        · right; exact List.mem_cons_of_mem _ h2

theorem assocAppend_keys (l : List (String × List RChunk)) (k : String)
    (v : RChunk) :
    (assocAppend l k v).map Prod.fst =
      (if k ∈ l.map Prod.fst then l.map Prod.fst
       else l.map Prod.fst ++ [k]) := by
  induction l with
  | nil => simp [assocAppend]
  | cons q qs ih =>
    by_cases h : q.1 = k
    · simp [assocAppend, h]
    · simp only [assocAppend, h, if_false, List.map_cons, ih]
      by_cases hk : k ∈ qs.map Prod.fst
      · simp [hk, Ne.symm h]
      · simp [hk, Ne.symm h]

theorem groupStep_eq_none {st : List (String × List RChunk) × List RChunk}
    {c : RChunk} (h : c.doc_id = none) :
    groupStep st c = (st.1, st.2 ++ [c]) := by
  unfold groupStep
  rw [h]

theorem groupStep_eq_usable {st : List (String × List RChunk) × List RChunk}
    {c : RChunk} {d : String} (h : c.doc_id = some d)
    (hok : ¬d = "" ∧ ¬pyStrip d = "") :
    groupStep st c = (assocAppend st.1 d c, st.2) := by
  unfold groupStep
  rw [h]
  show (if ¬d = "" ∧ ¬pyStrip d = "" then (assocAppend st.1 d c, st.2)
    else (st.1, st.2 ++ [c])) = _
  rw [if_pos hok]

theorem groupStep_eq_unusable {st : List (String × List RChunk) × List RChunk}
    {c : RChunk} {d : String} (h : c.doc_id = some d)
    (hok : ¬(¬d = "" ∧ ¬pyStrip d = "")) :
    groupStep st c = (st.1, st.2 ++ [c]) := by
  unfold groupStep
  rw [h]
  show (if ¬d = "" ∧ ¬pyStrip d = "" then (assocAppend st.1 d c, st.2)
    else (st.1, st.2 ++ [c])) = _
  rw [if_neg hok]

theorem group_keys_nodup (cs : List RChunk) :
    ∀ st, ((st.1.map Prod.fst).Nodup) →
      (((cs.foldl groupStep st).1).map Prod.fst).Nodup := by
  induction cs with
  | nil => intro st h; simpa using h
  | cons c cs ih =>
    intro st h
    simp only [List.foldl_cons]
    apply ih
    cases hd : c.doc_id with
    | none => rw [groupStep_eq_none hd]; exact h
    | some d =>
      by_cases hok : ¬d = "" ∧ ¬pyStrip d = ""
      · rw [groupStep_eq_usable hd hok]
        show ((assocAppend st.1 d c).map Prod.fst).Nodup
        rw [assocAppend_keys]
        by_cases hk : d ∈ st.1.map Prod.fst
        · simp only [hk, if_true]; exact h
        · simp only [hk, if_false]
          rw [List.nodup_append]
          exact ⟨h, List.nodup_singleton _, by simpa using hk⟩
      · rw [groupStep_eq_unusable hd hok]; exact h

theorem group_keys_prop (P : String → Prop) (cs : List RChunk) :
    ∀ st, (∀ p ∈ st.1, P p.1) →
      (∀ c ∈ cs, ∀ d, c.doc_id = some d → P d) →
      ∀ p ∈ (cs.foldl groupStep st).1, P p.1 := by
  induction cs with
  | nil => intro st h _ p hp; exact h p hp
  | cons c cs ih =>
    intro st h hcs
    simp only [List.foldl_cons]
    apply ih
    · intro p hp
      cases hd : c.doc_id with
      | none =>
        rw [groupStep_eq_none hd] at hp
        exact h p hp
      | some d =>
        by_cases hok : ¬d = "" ∧ ¬pyStrip d = ""
        · rw [groupStep_eq_usable hd hok] at hp
          have hp' : p ∈ assocAppend st.1 d c := hp
          rcases mem_assocAppend hp' with h1 | h1
          · rw [h1]; exact hcs c (List.mem_cons_self _ _) d hd
          · exact h p h1
        · rw [groupStep_eq_unusable hd hok] at hp
          exact h p hp
    · intro c' hc'; exact hcs c' (List.mem_cons_of_mem _ hc')

/-- Under distinct `chunk_id`s the within-group dedup keeps every chunk in
order. -/
theorem dedupByChunkId_of_nodup :
    ∀ {cs : List RChunk}, ((cs.map (fun c => c.chunk_id)).Nodup) →
      dedupByChunkId cs = cs := by
  have key : ∀ (cs : List RChunk) (acc : List (Option String × RChunk)),
      ((cs.map (fun c => c.chunk_id)).Nodup) →
      (∀ c ∈ cs, assocFind acc c.chunk_id = none) →
      cs.foldl (fun acc c =>
        match assocFind acc c.chunk_id with
        | none => acc ++ [(c.chunk_id, c)]
        | some s =>
            if c.similarity.getD 0 > s.similarity.getD 0 then
              assocReplace acc c.chunk_id c
            else acc) acc
        = acc ++ cs.map (fun c => (c.chunk_id, c)) := by
    intro cs
    induction cs with
    | nil => intro acc _ _; simp
    | cons c cs ih =>
      intro acc hnd hfresh
      simp only [List.foldl_cons]
      rw [List.map_cons] at hnd
      rcases List.nodup_cons.mp hnd with ⟨hna, hnd'⟩
      rw [show (match assocFind acc c.chunk_id with
          | none => acc ++ [(c.chunk_id, c)]
          | some s =>
              if c.similarity.getD 0 > s.similarity.getD 0 then
                assocReplace acc c.chunk_id c
              else acc) = acc ++ [(c.chunk_id, c)] by
        rw [hfresh c (List.mem_cons_self _ _)]]
      rw [ih (acc ++ [(c.chunk_id, c)]) hnd']
      · simp
      · intro c' hc'
        rw [assocFind_append, hfresh c' (List.mem_cons_of_mem _ hc')]
        have hne : c.chunk_id ≠ c'.chunk_id := by
          intro hEq
          exact hna (hEq ▸ List.mem_map_of_mem (fun c => c.chunk_id) hc')
        simp [assocFind, hne]
  intro cs hnd
  unfold dedupByChunkId
  rw [key cs [] hnd (by intro c _; rfl)]
  rw [List.nil_append, List.map_map]
  rw [show (Prod.snd ∘ fun (c : RChunk) => (c.chunk_id, c)) = id from rfl,
    List.map_id]

/-- With pairwise-distinct, nonempty, whitespace-free stripped ids the
second-pass loop inserts every document fresh, in order. -/
theorem foldl_pass2_fresh (docs : List MergedDoc) :
    ∀ acc, (∀ doc ∈ docs, ¬pyStrip doc.doc_id = "") →
      ((docs.map (fun doc => pyStrip doc.doc_id)).Nodup) →
      (∀ doc ∈ docs, assocFind acc (pyStrip doc.doc_id) = none) →
      docs.foldl pass2Step acc =
        acc ++ docs.map (fun doc => (pyStrip doc.doc_id, doc)) := by
  induction docs with
  | nil => intro acc _ _ _; simp
  | cons doc docs ih =>
    intro acc hne hnd hfresh
    simp only [List.foldl_cons]
    rw [List.map_cons] at hnd
    rcases List.nodup_cons.mp hnd with ⟨hna, hnd'⟩
    have hstep : pass2Step acc doc = acc ++ [(pyStrip doc.doc_id, doc)] := by
      unfold pass2Step
      rw [if_neg (hne doc (List.mem_cons_self _ _))]
      rw [hfresh doc (List.mem_cons_self _ _)]
    rw [hstep, ih (acc ++ [(pyStrip doc.doc_id, doc)])]
    · simp
    · intro d hd; exact hne d (List.mem_cons_of_mem _ hd)
    · exact hnd'
    · intro d hd
      rw [assocFind_append, hfresh d (List.mem_cons_of_mem _ hd)]
      have hne2 : pyStrip doc.doc_id ≠ pyStrip d.doc_id := by
        intro hEq
        exact hna (hEq ▸ List.mem_map_of_mem (fun doc => pyStrip doc.doc_id) hd)
      simp [assocFind, hne2]

theorem mkMergedFromGroup_chunks (d : String) (g : List RChunk) :
    (mkMergedFromGroup d g).chunks =
      stableSort chunkIndexAsc (dedupByChunkId g) := rfl

theorem mkMergedFromGroup_doc_id (d : String) (g : List RChunk) :
    (mkMergedFromGroup d g).doc_id = d := rfl

theorem group_without_nil :
    ∀ (cs : List RChunk),
      (∀ c ∈ cs, ∃ s, c.doc_id = some s ∧ ¬s = "" ∧ pyStrip s = s) →
      ∀ st, (cs.foldl groupStep st).2 = st.2 := by
  intro cs
  induction cs with
  | nil => intro _ st; rfl
  | cons c cs ih =>
    intro h st
    simp only [List.foldl_cons]
    obtain ⟨s, hd, hs0, hss⟩ := h c (List.mem_cons_self _ _)
    have hok : ¬s = "" ∧ ¬pyStrip s = "" := ⟨hs0, by rw [hss]; exact hs0⟩
    rw [ih (fun c' hc' => h c' (List.mem_cons_of_mem _ hc')) _,
      groupStep_eq_usable hd hok]

/-- C6 amended: when every candidate has a usable, whitespace-free `doc_id`
and all `chunk_id`s are pairwise distinct, `merge_chunks_by_doc_id` on `N`
candidates produces groups whose member chunk lists together hold exactly
`N` candidates.  (Without the distinctness hypothesis the within-group
`chunk_id` dedup drops candidates, see the counterexample.) -/
theorem merge_by_doc_completeness (chunks : List RChunk)
    (h1 : ∀ c ∈ chunks, ∃ s, c.doc_id = some s ∧ ¬s = "" ∧ pyStrip s = s)
    (h2 : ((chunks.map (fun c => c.chunk_id)).Nodup)) :
    ((mergeChunksByDocId chunks).map (fun doc => doc.chunks.length)).sum
      = chunks.length := by
  by_cases hnil : chunks = []
  · subst hnil; simp [mergeChunksByDocId]
  · have hw : (chunks.foldl groupStep ([], [])).2 = [] :=
      group_without_nil chunks h1 ([], [])
    have hperm : ((chunks.foldl groupStep ([], [])).1.map Prod.snd).flatten.Perm
        chunks := by
      have h := group_partition_perm chunks
      rwa [hw, List.append_nil] at h
    -- distinct chunk ids inside every group
    have hidnd : ∀ p ∈ (chunks.foldl groupStep ([], [])).1,
        ((p.2.map (fun c => c.chunk_id)).Nodup) := by
      intro p hp
      have hsub : p.2.Sublist
          ((chunks.foldl groupStep ([], [])).1.map Prod.snd).flatten :=
        List.sublist_flatten_of_mem (List.mem_map_of_mem Prod.snd hp)
      have hnd : ((((chunks.foldl groupStep ([], [])).1.map Prod.snd).flatten).map
          (fun c => c.chunk_id)).Nodup :=
        ((hperm.map (fun c => c.chunk_id)).nodup_iff).mpr h2
      exact hnd.sublist (hsub.map _)
    have hcnt : ∀ p ∈ (chunks.foldl groupStep ([], [])).1,
        (mkMergedFromGroup p.1 p.2).chunks.length = p.2.length := by
      intro p hp
      rw [mkMergedFromGroup_chunks, dedupByChunkId_of_nodup (hidnd p hp)]
      exact (stableSort_perm chunkIndexAsc p.2).length_eq
    -- the first pass
    have hp1 : mergedPass1 chunks
        = (chunks.foldl groupStep ([], [])).1.map
            (fun g => mkMergedFromGroup g.1 g.2) := by
      show (chunks.foldl groupStep ([], [])).1.map
          (fun g => mkMergedFromGroup g.1 g.2)
        ++ (chunks.foldl groupStep ([], [])).2.map mkSingleton = _
      rw [hw]
      simp
    have hp1sum : ((mergedPass1 chunks).map
        (fun doc => doc.chunks.length)).sum = chunks.length := by
      rw [hp1, List.map_map]
      have hcongr : (chunks.foldl groupStep ([], [])).1.map
          ((fun doc => doc.chunks.length) ∘ (fun g => mkMergedFromGroup g.1 g.2))
          = (chunks.foldl groupStep ([], [])).1.map (fun g => g.2.length) :=
        List.map_congr_left (fun p hp => hcnt p hp)
      rw [hcongr]
      have hlen : ((chunks.foldl groupStep ([], [])).1.map
          (fun g => g.2.length)).sum
          = ((chunks.foldl groupStep ([], [])).1.map Prod.snd).flatten.length := by
        rw [List.length_flatten, List.map_map]
        rfl
      rw [hlen]
      exact hperm.length_eq
    -- key facts carried to the second pass
    have hkeyprop : ∀ p ∈ (chunks.foldl groupStep ([], [])).1,
        pyStrip p.1 = p.1 ∧ p.1 ≠ "" := by
      apply group_keys_prop (P := fun d => pyStrip d = d ∧ d ≠ "") chunks ([], [])
      · intro p hp; simp at hp
      · intro c hc d hd
        obtain ⟨s, hd', hs0, hss⟩ := h1 c hc
        rw [hd'] at hd
        injection hd with hsd
        subst hsd
        exact ⟨hss, hs0⟩
    have hknd : (((chunks.foldl groupStep ([], [])).1).map Prod.fst).Nodup :=
      group_keys_nodup chunks ([], []) (by simp)
    -- pass-1 documents have clean, pairwise distinct stripped ids
    have hidsP1 : (mergedPass1 chunks).map (fun doc => pyStrip doc.doc_id)
        = ((chunks.foldl groupStep ([], [])).1).map Prod.fst := by
      rw [hp1, List.map_map]
      exact List.map_congr_left (fun p hp => by
        simp only [Function.comp_apply, mkMergedFromGroup_doc_id]
        exact (hkeyprop p hp).1)
    have hmdperm : (stableSort avgSimDesc (mergedPass1 chunks)).Perm
        (mergedPass1 chunks) := stableSort_perm _ _
    have hmdnd : ((stableSort avgSimDesc (mergedPass1 chunks)).map
        (fun doc => pyStrip doc.doc_id)).Nodup := by
      refine ((hmdperm.map _).nodup_iff).mpr ?_
      rw [hidsP1]
      exact hknd
    have hmdne : ∀ doc ∈ stableSort avgSimDesc (mergedPass1 chunks),
        ¬pyStrip doc.doc_id = "" := by
      intro doc hdoc
      have hdoc' : doc ∈ mergedPass1 chunks := hmdperm.mem_iff.mp hdoc
      rw [hp1] at hdoc'
      obtain ⟨p, hp, rfl⟩ := List.mem_map.mp hdoc'
      rw [mkMergedFromGroup_doc_id, (hkeyprop p hp).1]
      exact (hkeyprop p hp).2
    have hfold := foldl_pass2_fresh (stableSort avgSimDesc (mergedPass1 chunks))
      [] hmdne hmdnd (by intro d _; rfl)
    -- assemble
    have hfinal : mergeChunksByDocId chunks
        = stableSort avgSimDesc (stableSort avgSimDesc (mergedPass1 chunks)) := by
      show (if chunks = [] then [] else
        stableSort avgSimDesc
          (((stableSort avgSimDesc (mergedPass1 chunks)).foldl pass2Step
            []).map Prod.snd)) = _
      rw [if_neg hnil, hfold]
      rw [List.nil_append, List.map_map]
      rw [show (Prod.snd ∘ fun (doc : MergedDoc) => (pyStrip doc.doc_id, doc))
        = id from rfl, List.map_id]
    rw [hfinal]
    have hp2 : (stableSort avgSimDesc
        (stableSort avgSimDesc (mergedPass1 chunks))).Perm
        (mergedPass1 chunks) := (stableSort_perm _ _).trans hmdperm
    rw [(hp2.map (fun doc => doc.chunks.length)).sum_eq]
    exact hp1sum

theorem groupStep_eq_of_unusable {st : List (String × List RChunk) × List RChunk}
    {c : RChunk} (h : usableDocId c.doc_id = false) :
    groupStep st c = (st.1, st.2 ++ [c]) := by
  cases hd : c.doc_id with
  | none => exact groupStep_eq_none hd
  | some s =>
    rw [hd] at h
    simp only [usableDocId, decide_eq_false_iff_not] at h
    exact groupStep_eq_unusable hd h

theorem mem_without_mono (cs : List RChunk) {c : RChunk} :
    ∀ st, c ∈ st.2 → c ∈ (cs.foldl groupStep st).2 := by
  induction cs with
  | nil => intro st h; exact h
  | cons c' cs ih =>
    intro st h
    simp only [List.foldl_cons]
    apply ih
    cases hd : c'.doc_id with
    | none => rw [groupStep_eq_none hd]; exact List.mem_append_left _ h
    | some s =>
      by_cases hok : ¬s = "" ∧ ¬pyStrip s = ""
      · rw [groupStep_eq_usable hd hok]; exact h
      · rw [groupStep_eq_unusable hd hok]; exact List.mem_append_left _ h

theorem mem_without_of_unusable (cs : List RChunk) {c : RChunk}
    (hc : c ∈ cs) (hu : usableDocId c.doc_id = false) :
    ∀ st, c ∈ (cs.foldl groupStep st).2 := by
  induction cs with
  | nil => simp at hc
  | cons c' cs ih =>
    intro st
    simp only [List.foldl_cons]
    rcases List.mem_cons.mp hc with rfl | hc'
    · apply mem_without_mono
      rw [groupStep_eq_of_unusable hu]
      exact List.mem_append_right _ (List.mem_singleton_self _)
    · exact ih hc' _

/-- Every candidate with an absent or whitespace-only `doc_id` is emitted by
the first pass as its own singleton record (`doc_id := chunk_id`,
`chunk_count = 1`, `avg_similarity = its similarity`). -/
theorem merge_singleton_emission :
    ∀ (chunks : List RChunk), ∀ c ∈ chunks, usableDocId c.doc_id = false →
      mkSingleton c ∈ mergedPass1 chunks := by
  intro chunks c hc hu
  have h : c ∈ (chunks.foldl groupStep ([], [])).2 :=
    mem_without_of_unusable chunks hc hu ([], [])
  show mkSingleton c ∈
    (chunks.foldl groupStep ([], [])).1.map
      (fun g => mkMergedFromGroup g.1 g.2)
    ++ (chunks.foldl groupStep ([], [])).2.map mkSingleton
  exact List.mem_append_right _ (List.mem_map_of_mem mkSingleton h)

theorem pass2Step_eq_fresh {acc : List (String × MergedDoc)} {doc : MergedDoc}
    (hne : ¬pyStrip doc.doc_id = "")
    (hf : assocFind acc (pyStrip doc.doc_id) = none) :
    pass2Step acc doc = acc ++ [(pyStrip doc.doc_id, doc)] := by
  unfold pass2Step
  rw [if_neg hne, hf]

theorem pass2Step_eq_found {acc : List (String × MergedDoc)} {doc : MergedDoc}
    {ex : MergedDoc} (hne : ¬pyStrip doc.doc_id = "")
    (hf : assocFind acc (pyStrip doc.doc_id) = some ex) :
    pass2Step acc doc =
      assocReplace acc (pyStrip doc.doc_id)
        (mergeTwo (pyStrip doc.doc_id) ex doc) := by
  unfold pass2Step
  rw [if_neg hne, hf]

theorem mkSingleton_doc_id (c : RChunk) :
    (mkSingleton c).doc_id = c.chunk_id.getD "" := rfl

/-- The second-pass consequence: a chunk without a usable `doc_id` whose
`chunk_id` equals another group's `doc_id` is merged into that group, the
average being recomputed over the (by-`chunk_id`) union of the members. -/
theorem merge_collision_merge :
    ∀ (c1 c2 : RChunk) (d e : String) (s1 s2 : ℚ),
      c1.doc_id = some d → ¬d = "" → pyStrip d = d →
      usableDocId c2.doc_id = false → c2.chunk_id = some d →
      c1.chunk_id = some e → ¬e = d →
      c1.similarity = some s1 → c2.similarity = some s2 →
      ∃ r, mergeChunksByDocId [c1, c2] = [r] ∧ r.doc_id = d ∧
        r.chunk_count = 2 ∧ r.avg_similarity = (s1 + s2) / 2 ∧
        r.chunks.Perm [c1, c2] := by
  intro c1 c2 d e s1 s2 hd1 hd0 hds hu2 hc2id hc1id hne hs1 hs2
  have hok : ¬d = "" ∧ ¬pyStrip d = "" := ⟨hd0, by rw [hds]; exact hd0⟩
  have hfold : [c1, c2].foldl groupStep ([], []) = ([(d, [c1])], [c2]) := by
    simp only [List.foldl_cons, List.foldl_nil]
    rw [groupStep_eq_usable hd1 hok, groupStep_eq_of_unusable hu2]
    rfl
  have hp1 : mergedPass1 [c1, c2]
      = [mkMergedFromGroup d [c1], mkSingleton c2] := by
    show ([c1, c2].foldl groupStep ([], [])).1.map
        (fun g => mkMergedFromGroup g.1 g.2)
      ++ ([c1, c2].foldl groupStep ([], [])).2.map mkSingleton = _
    rw [hfold]
    rfl
  have hD1chunks : (mkMergedFromGroup d [c1]).chunks = [c1] := rfl
  have hD2chunks : (mkSingleton c2).chunks = [c2] := rfl
  have hD1id : (mkMergedFromGroup d [c1]).doc_id = d := rfl
  have hD2id : (mkSingleton c2).doc_id = d := by
    rw [mkSingleton_doc_id, hc2id]
    rfl
  have hstrip1 : pyStrip (mkMergedFromGroup d [c1]).doc_id = d := by
    rw [hD1id, hds]
  have hstrip2 : pyStrip (mkSingleton c2).doc_id = d := by
    rw [hD2id, hds]
  have hne1 : ¬pyStrip (mkMergedFromGroup d [c1]).doc_id = "" := by
    rw [hstrip1]; exact hd0
  have hne2 : ¬pyStrip (mkSingleton c2).doc_id = "" := by
    rw [hstrip2]; exact hd0
  have hdict1 : toChunkDict [c1] = [(some e, c1)] := by
    unfold toChunkDict
    simp only [List.foldl_cons, List.foldl_nil, assocFind]
    rw [hc1id]
    rfl
  have hdict2 : toChunkDict [c2] = [(some d, c2)] := by
    unfold toChunkDict
    simp only [List.foldl_cons, List.foldl_nil, assocFind]
    rw [hc2id]
    rfl
  have hunion12 : dictUnion [(some e, c1)] [(some d, c2)]
      = [(some e, c1), (some d, c2)] := by
    unfold dictUnion
    simp only [List.foldl_cons, List.foldl_nil, assocFind]
    have hx : ¬(some e = some d) := by simp [hne]
    rw [if_neg hx]
    rfl
  have hunion21 : dictUnion [(some d, c2)] [(some e, c1)]
      = [(some d, c2), (some e, c1)] := by
    unfold dictUnion
    simp only [List.foldl_cons, List.foldl_nil, assocFind]
    have hx : ¬(some d = some e) := by simp [Ne.symm hne]
    rw [if_neg hx]
    rfl
  -- projections of the two possible merged records
  have hM12chunks : (mergeTwo d (mkMergedFromGroup d [c1])
      (mkSingleton c2)).chunks = [c1, c2] := by
    show ((dictUnion (toChunkDict (mkMergedFromGroup d [c1]).chunks)
      (toChunkDict (mkSingleton c2).chunks)).map Prod.snd) = [c1, c2]
    rw [hD1chunks, hD2chunks, hdict1, hdict2, hunion12]
    rfl
  have hM12count : (mergeTwo d (mkMergedFromGroup d [c1])
      (mkSingleton c2)).chunk_count = 2 := by
    show ((dictUnion (toChunkDict (mkMergedFromGroup d [c1]).chunks)
      (toChunkDict (mkSingleton c2).chunks)).map Prod.snd).length = 2
    rw [hD1chunks, hD2chunks, hdict1, hdict2, hunion12]
    rfl
  have hM12avg : (mergeTwo d (mkMergedFromGroup d [c1])
      (mkSingleton c2)).avg_similarity = (s1 + s2) / 2 := by
    show (if (dictUnion (toChunkDict (mkMergedFromGroup d [c1]).chunks)
        (toChunkDict (mkSingleton c2).chunks)).map Prod.snd = [] then (0 : ℚ)
      else (((dictUnion (toChunkDict (mkMergedFromGroup d [c1]).chunks)
          (toChunkDict (mkSingleton c2).chunks)).map Prod.snd).map
            (fun c => c.similarity.getD 0)).sum
        / ((dictUnion (toChunkDict (mkMergedFromGroup d [c1]).chunks)
          (toChunkDict (mkSingleton c2).chunks)).map Prod.snd).length)
      = (s1 + s2) / 2
    rw [hD1chunks, hD2chunks, hdict1, hdict2, hunion12]
    simp [hs1, hs2]
  have hM12id : (mergeTwo d (mkMergedFromGroup d [c1])
      (mkSingleton c2)).doc_id = d := rfl
  have hM21chunks : (mergeTwo d (mkSingleton c2)
      (mkMergedFromGroup d [c1])).chunks = [c2, c1] := by
    show ((dictUnion (toChunkDict (mkSingleton c2).chunks)
      (toChunkDict (mkMergedFromGroup d [c1]).chunks)).map Prod.snd) = [c2, c1]
    rw [hD1chunks, hD2chunks, hdict1, hdict2, hunion21]
    rfl
  have hM21count : (mergeTwo d (mkSingleton c2)
      (mkMergedFromGroup d [c1])).chunk_count = 2 := by
    show ((dictUnion (toChunkDict (mkSingleton c2).chunks)
      (toChunkDict (mkMergedFromGroup d [c1]).chunks)).map Prod.snd).length = 2
    rw [hD1chunks, hD2chunks, hdict1, hdict2, hunion21]
    rfl
  have hM21avg : (mergeTwo d (mkSingleton c2)
      (mkMergedFromGroup d [c1])).avg_similarity = (s1 + s2) / 2 := by
    show (if (dictUnion (toChunkDict (mkSingleton c2).chunks)
        (toChunkDict (mkMergedFromGroup d [c1]).chunks)).map Prod.snd = [] then (0 : ℚ)
      else (((dictUnion (toChunkDict (mkSingleton c2).chunks)
          (toChunkDict (mkMergedFromGroup d [c1]).chunks)).map Prod.snd).map
            (fun c => c.similarity.getD 0)).sum
        / ((dictUnion (toChunkDict (mkSingleton c2).chunks)
          (toChunkDict (mkMergedFromGroup d [c1]).chunks)).map Prod.snd).length)
      = (s1 + s2) / 2
    rw [hD1chunks, hD2chunks, hdict1, hdict2, hunion21]
    simp [hs1, hs2]
    ring
  have hM21id : (mergeTwo d (mkSingleton c2)
      (mkMergedFromGroup d [c1])).doc_id = d := rfl
  -- the by-average sort of the two pass-1 records
  by_cases hcmp : avgSimDesc (mkMergedFromGroup d [c1]) (mkSingleton c2)
  · -- group record first
    have hmd : stableSort avgSimDesc (mergedPass1 [c1, c2])
        = [mkMergedFromGroup d [c1], mkSingleton c2] := by
      rw [hp1]
      simp [stableSort, insertOrd, hcmp]
    have hu1 : pass2Step [] (mkMergedFromGroup d [c1])
        = [(d, mkMergedFromGroup d [c1])] := by
      rw [pass2Step_eq_fresh hne1
        (show assocFind ([] : List (String × MergedDoc))
          (pyStrip (mkMergedFromGroup d [c1]).doc_id) = none from rfl), hstrip1]
      rfl
    have hu2' : pass2Step [(d, mkMergedFromGroup d [c1])] (mkSingleton c2)
        = [(d, mergeTwo d (mkMergedFromGroup d [c1]) (mkSingleton c2))] := by
      have hf : assocFind [(d, mkMergedFromGroup d [c1])]
          (pyStrip (mkSingleton c2).doc_id) = some (mkMergedFromGroup d [c1]) := by
        rw [hstrip2]
        simp [assocFind]
      rw [pass2Step_eq_found hne2 hf, hstrip2]
      simp [assocReplace]
    have hfinal : mergeChunksByDocId [c1, c2]
        = [mergeTwo d (mkMergedFromGroup d [c1]) (mkSingleton c2)] := by
      show (if ([c1, c2] : List RChunk) = [] then [] else
        stableSort avgSimDesc
          (((stableSort avgSimDesc (mergedPass1 [c1, c2])).foldl pass2Step
            []).map Prod.snd)) = _
      rw [if_neg (by simp), hmd]
      simp only [List.foldl_cons, List.foldl_nil]
      rw [hu1, hu2']
      rfl
    exact ⟨_, hfinal, hM12id, hM12count, hM12avg, hM12chunks ▸ List.Perm.refl _⟩
  · -- singleton record first
    have hmd : stableSort avgSimDesc (mergedPass1 [c1, c2])
        = [mkSingleton c2, mkMergedFromGroup d [c1]] := by
      rw [hp1]
      simp [stableSort, insertOrd, hcmp]
    have hu1 : pass2Step [] (mkSingleton c2) = [(d, mkSingleton c2)] := by
      rw [pass2Step_eq_fresh hne2
        (show assocFind ([] : List (String × MergedDoc))
          (pyStrip (mkSingleton c2).doc_id) = none from rfl), hstrip2]
      rfl
    have hu2' : pass2Step [(d, mkSingleton c2)] (mkMergedFromGroup d [c1])
        = [(d, mergeTwo d (mkSingleton c2) (mkMergedFromGroup d [c1]))] := by
      have hf : assocFind [(d, mkSingleton c2)]
          (pyStrip (mkMergedFromGroup d [c1]).doc_id) = some (mkSingleton c2) := by
        rw [hstrip1]
        simp [assocFind]
      rw [pass2Step_eq_found hne1 hf, hstrip1]
      simp [assocReplace]
    have hfinal : mergeChunksByDocId [c1, c2]
        = [mergeTwo d (mkSingleton c2) (mkMergedFromGroup d [c1])] := by
      show (if ([c1, c2] : List RChunk) = [] then [] else
        stableSort avgSimDesc
          (((stableSort avgSimDesc (mergedPass1 [c1, c2])).foldl pass2Step
            []).map Prod.snd)) = _
      rw [if_neg (by simp), hmd]
      simp only [List.foldl_cons, List.foldl_nil]
      rw [hu1, hu2']
      rfl
    refine ⟨_, hfinal, hM21id, hM21count, hM21avg, ?_⟩
    rw [hM21chunks]
    exact List.Perm.swap c1 c2 []

/-- C10: every input candidate whose `doc_id` is absent or whitespace-only
is emitted by the first pass of `merge_chunks_by_doc_id` as a result with
`doc_id = chunk_id`, `chunk_count = 1` and `avg_similarity` equal to its own
similarity; and when that `chunk_id` equals another result's `doc_id`, the
second-pass deduplication merges the two into a single result whose
`avg_similarity` is recomputed over the union of their member chunks. -/
theorem merge_no_docid_behavior :
    (∀ (chunks : List RChunk), ∀ c ∈ chunks, usableDocId c.doc_id = false →
      ∃ r ∈ mergedPass1 chunks, r.doc_id = c.chunk_id.getD "" ∧
        r.chunk_count = 1 ∧ r.avg_similarity = c.similarity.getD 0 ∧
        r.chunks = [c]) ∧
    (∀ (c1 c2 : RChunk) (d e : String) (s1 s2 : ℚ),
      c1.doc_id = some d → ¬d = "" → pyStrip d = d →
      usableDocId c2.doc_id = false → c2.chunk_id = some d →
      c1.chunk_id = some e → ¬e = d →
      c1.similarity = some s1 → c2.similarity = some s2 →
      ∃ r, mergeChunksByDocId [c1, c2] = [r] ∧ r.doc_id = d ∧
        r.chunk_count = 2 ∧ r.avg_similarity = (s1 + s2) / 2 ∧
        r.chunks.Perm [c1, c2]) := by
  constructor
  · intro chunks c hc hu
    exact ⟨mkSingleton c, merge_singleton_emission chunks c hc hu,
      rfl, rfl, rfl, rfl⟩
  · exact merge_collision_merge

/-- Witness for C10: a usable-`doc_id` chunk (doc `"D"`) and a chunk without
`doc_id` whose `chunk_id` is `"D"`. -/
theorem merge_no_docid_behavior_witness :
    (∃ r ∈ mergedPass1
        [⟨some "k1", some "D", "x", some (1 / 2), some 0, "T1", "t1", "", "", none⟩,
         ⟨some "D", none, "y", some (1 / 4), some 1, "T2", "t2", "", "", none⟩],
      r.doc_id = (Option.getD (some "D") "") ∧ r.chunk_count = 1 ∧
        r.avg_similarity = (Option.getD (some (1 / 4 : ℚ)) 0) ∧
        r.chunks =
          [⟨some "D", none, "y", some (1 / 4), some 1, "T2", "t2", "", "", none⟩]) ∧
    (∃ r, mergeChunksByDocId
        [⟨some "k1", some "D", "x", some (1 / 2), some 0, "T1", "t1", "", "", none⟩,
         ⟨some "D", none, "y", some (1 / 4), some 1, "T2", "t2", "", "", none⟩]
      = [r] ∧ r.doc_id = "D" ∧ r.chunk_count = 2 ∧
        r.avg_similarity = ((1 / 2 : ℚ) + 1 / 4) / 2 ∧
        r.chunks.Perm
          [⟨some "k1", some "D", "x", some (1 / 2), some 0, "T1", "t1", "", "", none⟩,
           ⟨some "D", none, "y", some (1 / 4), some 1, "T2", "t2", "", "", none⟩]) := by
  constructor
  · exact merge_no_docid_behavior.1
      [⟨some "k1", some "D", "x", some (1 / 2), some 0, "T1", "t1", "", "", none⟩,
       ⟨some "D", none, "y", some (1 / 4), some 1, "T2", "t2", "", "", none⟩]
      ⟨some "D", none, "y", some (1 / 4), some 1, "T2", "t2", "", "", none⟩
      (List.mem_cons_of_mem _ (List.mem_cons_self _ _)) rfl
  · exact merge_no_docid_behavior.2
      ⟨some "k1", some "D", "x", some (1 / 2), some 0, "T1", "t1", "", "", none⟩
      ⟨some "D", none, "y", some (1 / 4), some 1, "T2", "t2", "", "", none⟩
      "D" "k1" (1 / 2) (1 / 4) rfl (by decide) (by decide) rfl rfl rfl
      (by decide) rfl rfl

/-- Counterexample to C6 as stated: two candidates with the same `doc_id`
and the same `chunk_id` — the within-group dedup keeps only the
higher-similarity one, so the output's member lists hold 1 candidate, not 2. -/
theorem merge_completeness_cex :
    ((mergeChunksByDocId
        [⟨some "c", some "d", "x", some (1 / 2), some 0, "T", "ts", "", "", none⟩,
         ⟨some "c", some "d", "y", some (9 / 10), some 1, "T", "ts", "", "", none⟩]).map
      (fun doc => doc.chunks.length)).sum = 1 := by
  norm_num +decide [mergeChunksByDocId, mergedPass1, groupStep, assocAppend,
    dedupByChunkId, assocFind, assocReplace, mkMergedFromGroup, mkSingleton,
    stableSort, insertOrd, chunkIndexAsc, avgSimDesc, avgSim, concatContents,
    pyStrip, stripT, lstripT, rstripT, isPyWS, pass2Step, mergeTwo,
    toChunkDict, dictUnion, usableDocId]

/-- Witness for the amended C6: two candidates, distinct chunk ids, clean
distinct doc ids — both members survive. -/
theorem merge_by_doc_completeness_witness :
    ((mergeChunksByDocId
        [⟨some "c1", some "d1", "x", some (1 / 2), some 0, "T1", "t1", "", "", none⟩,
         ⟨some "c2", some "d2", "y", some (3 / 4), some 0, "T2", "t2", "", "", none⟩]).map
      (fun doc => doc.chunks.length)).sum = 2 := by
  have h := merge_by_doc_completeness
    [⟨some "c1", some "d1", "x", some (1 / 2), some 0, "T1", "t1", "", "", none⟩,
     ⟨some "c2", some "d2", "y", some (3 / 4), some 0, "T2", "t2", "", "", none⟩]
    (by
      intro c hc
      rcases List.mem_cons.mp hc with rfl | hc
      · exact ⟨"d1", rfl, by decide, by decide⟩
      · rcases List.mem_cons.mp hc with rfl | hc
        · exact ⟨"d2", rfl, by decide, by decide⟩
        · simp at hc)
    (by decide)
  simpa using h

/-! ## Multi-query (fan-out) search: `search_chunks_multi_query`
(`src/Agent/vector_db.py`)

The external collaborators are parameters: `fragments` holds, per query
fragment (index `i` = position in `query_chunks`), the hits returned by the
vector store for that fragment's embedding. -/

/-- One raw hit from the store: the requested output fields plus the L2
distance. -/
structure MQHit where
  chunk_id : String
  doc_id : String
  content : String
  distance : ℚ
  chunk_index : Int
  chunk_type : String
  title : String
  timestamp : String
  deriving Repr, DecidableEq

/-- One merged result dict built by `search_chunks_multi_query`. -/
structure MQResult where
  chunk_id : String
  doc_id : String
  content : String
  similarity : ℚ
  chunk_index : Int
  chunk_type : String
  title : String
  timestamp : String
  matched_by_query_chunk : Nat
  deriving Repr, DecidableEq

/-- `if exclude_doc_id and doc_id == exclude_doc_id: continue` — the empty
string is falsy, so only a nonempty `exclude_doc_id` filters. -/
def mqExcluded (excl : Option String) (h : MQHit) : Prop :=
  match excl with
  | some ex => ¬ex = "" ∧ h.doc_id = ex
  | none => False

instance (excl : Option String) (h : MQHit) : Decidable (mqExcluded excl h) := by
  unfold mqExcluded
  cases excl with
  | none => exact inferInstance
  | some ex => exact inferInstance

/-- `cosine = 1 − d²/2` for L2 distance `d` of normalized vectors, clamped
into `[0, 1]` by `max(0.0, min(1.0, ...))`. -/
def hitSimilarity (d : ℚ) : ℚ := max 0 (min 1 (1 - d ^ 2 / 2))

/-- The result dict appended for a hit whose `chunk_id` is new. -/
def mkMQResult (h : MQHit) (sim : ℚ) (i : Nat) : MQResult where
  chunk_id := h.chunk_id
  doc_id := h.doc_id
  content := h.content
  similarity := sim
  chunk_index := h.chunk_index
  chunk_type := h.chunk_type
  title := h.title
  timestamp := h.timestamp
  matched_by_query_chunk := i

/-- The inner `for existing in all_results` loop: find the entry with this
`chunk_id` and a strictly lower similarity, update its `similarity` and
`matched_by_query_chunk`, and `break`; an entry with the same `chunk_id` but
no improvement is passed over (the `break` sits inside the `if`). -/
def mqUpdate : List MQResult → String → ℚ → Nat → List MQResult
  | [], _, _, _ => []
  | r :: rs, cid, sim, i =>
      if r.chunk_id = cid ∧ sim > r.similarity then
        { r with similarity := sim, matched_by_query_chunk := i } :: rs
      else r :: mqUpdate rs cid sim i

/-- Processing one hit of fragment `i`: skip excluded hits; append a result
for a new `chunk_id` (Python also adds the id to `chunk_id_set`, which always
mirrors the ids present in `all_results`, so membership is tested against the
result list); otherwise keep the higher similarity. -/
def mqStep (excl : Option String) (i : Nat) (st : List MQResult)
    (h : MQHit) : List MQResult :=
  if mqExcluded excl h then st
  else
    let sim := hitSimilarity h.distance
    if ∃ r ∈ st, r.chunk_id = h.chunk_id then
      mqUpdate st h.chunk_id sim i
    else st ++ [mkMQResult h sim i]

/-- `all_results.sort(key=lambda x: x['similarity'], reverse=True)`. -/
def mqSimDesc (a b : MQResult) : Bool := b.similarity ≤ a.similarity

/-- The merged, deduplicated, similarity-sorted result list of
`search_chunks_multi_query` (before the optional global rerank/truncation). -/
def mergeMultiQuery (excl : Option String) (fragments : List (List MQHit)) :
    List MQResult :=
  stableSort mqSimDesc
    (fragments.enum.foldl (fun st p => p.2.foldl (mqStep excl p.1) st) [])

/-- `search_chunks_multi_query` on the no-rerank path: merge, sort, then
`all_results[:final_top_k]` when `final_top_k` is truthy (a `0` is falsy in
Python and performs no truncation). -/
def searchChunksMultiQuery (excl : Option String)
    (fragments : List (List MQHit)) (finalTopK : Option Nat) :
    List MQResult :=
  match finalTopK with
  | some k =>
      if k = 0 then mergeMultiQuery excl fragments
      else (mergeMultiQuery excl fragments).take k
  | none => mergeMultiQuery excl fragments

/-- The running invariant of the merge loop over the already-processed
(fragment index, hit) pairs: result ids are distinct; each result's
similarity was observed (with its recorded fragment) and dominates every
observed similarity for its id; every non-excluded processed hit has an
entry. -/
def mqInv (excl : Option String) (processed : List (Nat × MQHit))
    (st : List MQResult) : Prop :=
  ((st.map (fun r => r.chunk_id)).Nodup) ∧
  (∀ r ∈ st,
    (∃ q ∈ processed, q.1 = r.matched_by_query_chunk ∧ ¬mqExcluded excl q.2 ∧
      q.2.chunk_id = r.chunk_id ∧ hitSimilarity q.2.distance = r.similarity) ∧
    (∀ q ∈ processed, ¬mqExcluded excl q.2 → q.2.chunk_id = r.chunk_id →
      hitSimilarity q.2.distance ≤ r.similarity)) ∧
  (∀ q ∈ processed, ¬mqExcluded excl q.2 →
    ∃ r ∈ st, r.chunk_id = q.2.chunk_id)

theorem mqUpdate_ids (st : List MQResult) (cid : String) (sim : ℚ) (i : Nat) :
    (mqUpdate st cid sim i).map (fun r => r.chunk_id)
      = st.map (fun r => r.chunk_id) := by
  induction st with
  | nil => rfl
  | cons r rs ih =>
    by_cases h : r.chunk_id = cid ∧ sim > r.similarity
    · simp [mqUpdate, h]
    · simp [mqUpdate, h, ih]

theorem mqUpdate_mem {st : List MQResult} {cid : String} {sim : ℚ} {i : Nat}
    (hnd : ((st.map (fun r => r.chunk_id)).Nodup)) :
    ∀ r' ∈ mqUpdate st cid sim i,
      (r' ∈ st ∧ (r'.chunk_id = cid → sim ≤ r'.similarity)) ∨
      (∃ r ∈ st, r.chunk_id = cid ∧ r.similarity < sim ∧
        r' = { r with similarity := sim, matched_by_query_chunk := i }) := by
  induction st with
  | nil => intro r' h; simp [mqUpdate] at h
  | cons r rs ih =>
    rw [List.map_cons] at hnd
    rcases List.nodup_cons.mp hnd with ⟨hnotin, hnd'⟩
    intro r' hr'
    by_cases hcond : r.chunk_id = cid ∧ sim > r.similarity
    · rw [mqUpdate, if_pos hcond] at hr'
      rcases List.mem_cons.mp hr' with h1 | h1
      · right
        exact ⟨r, List.mem_cons_self _ _, hcond.1, hcond.2, h1⟩
      · left
        refine ⟨List.mem_cons_of_mem _ h1, ?_⟩
        intro hid
        exact absurd (hid ▸ List.mem_map_of_mem (fun r => r.chunk_id) h1)
          (hcond.1 ▸ hnotin)
    · rw [mqUpdate, if_neg hcond] at hr'
      rcases List.mem_cons.mp hr' with h1 | h1
      · left
        refine ⟨h1 ▸ List.mem_cons_self _ _, ?_⟩
        intro hid
        rw [h1]
        by_contra hlt
        exact hcond ⟨h1 ▸ hid, lt_of_not_le hlt⟩
      · rcases ih hnd' r' h1 with ⟨h2, h3⟩ | ⟨r0, h2, h3⟩
        · exact Or.inl ⟨List.mem_cons_of_mem _ h2, h3⟩
        · exact Or.inr ⟨r0, List.mem_cons_of_mem _ h2, h3⟩

theorem mqStep_inv {excl : Option String} {processed : List (Nat × MQHit)}
    {st : List MQResult} (h : mqInv excl processed st) (q : Nat × MQHit) :
    mqInv excl (processed ++ [q]) (mqStep excl q.1 st q.2) := by
  obtain ⟨hnd, hmem, hcov⟩ := h
  by_cases hex : mqExcluded excl q.2
  · rw [mqStep, if_pos hex]
    refine ⟨hnd, ?_, ?_⟩
    · intro r hr
      obtain ⟨⟨q', hq', hw⟩, hb⟩ := hmem r hr
      refine ⟨⟨q', List.mem_append_left _ hq', hw⟩, ?_⟩
      intro q' hq' hrel hid
      rcases List.mem_append.mp hq' with h1 | h1
      · exact hb q' h1 hrel hid
      · rw [List.mem_singleton.mp h1] at hrel
        exact absurd hex hrel
    · intro q' hq' hrel
      rcases List.mem_append.mp hq' with h1 | h1
      · exact hcov q' h1 hrel
      · rw [List.mem_singleton.mp h1] at hrel
        exact absurd hex hrel
  · rw [mqStep, if_neg hex]
    by_cases hfound : ∃ r ∈ st, r.chunk_id = q.2.chunk_id
    · rw [if_pos hfound]
      refine ⟨?_, ?_, ?_⟩
      · rw [mqUpdate_ids]; exact hnd
      · intro r' hr'
        rcases mqUpdate_mem hnd r' hr' with ⟨h1, h2⟩ | ⟨r, h1, h2, h3, h4⟩
        · obtain ⟨⟨q', hq', hw⟩, hb⟩ := hmem r' h1
          refine ⟨⟨q', List.mem_append_left _ hq', hw⟩, ?_⟩
          intro q' hq' hrel hid
          rcases List.mem_append.mp hq' with hp | hp
          · exact hb q' hp hrel hid
          · rw [List.mem_singleton.mp hp] at hid ⊢
            exact h2 hid.symm
        · subst h4
          constructor
          · exact ⟨q, List.mem_append_right _ (List.mem_singleton_self _),
              rfl, hex, h2.symm, rfl⟩
          · intro q' hq' hrel hid
            rcases List.mem_append.mp hq' with hp | hp
            · obtain ⟨-, hb⟩ := hmem r h1
              exact le_of_lt (lt_of_le_of_lt (hb q' hp hrel hid) h3)
            · rw [List.mem_singleton.mp hp]
      · intro q' hq' hrel
        have hids : ∀ cid, cid ∈ st.map (fun r => r.chunk_id) →
            ∃ r' ∈ mqUpdate st q.2.chunk_id (hitSimilarity q.2.distance) q.1,
              r'.chunk_id = cid := by
          intro cid hcid
          rw [← mqUpdate_ids st q.2.chunk_id (hitSimilarity q.2.distance) q.1]
            at hcid
          obtain ⟨r', hr', hr'id⟩ := List.mem_map.mp hcid
          exact ⟨r', hr', hr'id⟩
        rcases List.mem_append.mp hq' with hp | hp
        · obtain ⟨r, hr, hrid⟩ := hcov q' hp hrel
          exact (hrid ▸ hids q'.2.chunk_id
            (hrid ▸ List.mem_map_of_mem (fun r => r.chunk_id) hr))
        · rw [List.mem_singleton.mp hp]
          obtain ⟨r0, hr0, hr0id⟩ := hfound
          exact hids q.2.chunk_id
            (hr0id ▸ List.mem_map_of_mem (fun r => r.chunk_id) hr0)
    · rw [if_neg hfound]
      refine ⟨?_, ?_, ?_⟩
      · simp only [List.map_append, List.map_cons, List.map_nil]
        rw [List.nodup_append]
        refine ⟨hnd, List.nodup_singleton _, ?_⟩
        intro cid hcid
        obtain ⟨r, hr, hrid⟩ := List.mem_map.mp hcid
        simp only [List.mem_singleton]
        intro hEq
        exact hfound ⟨r, hr, by rw [hrid]; exact hEq⟩
      · intro r' hr'
        rcases List.mem_append.mp hr' with h1 | h1
        · obtain ⟨⟨q', hq', hw⟩, hb⟩ := hmem r' h1
          refine ⟨⟨q', List.mem_append_left _ hq', hw⟩, ?_⟩
          intro q' hq' hrel hid
          rcases List.mem_append.mp hq' with hp | hp
          · exact hb q' hp hrel hid
          · rw [List.mem_singleton.mp hp] at hid
            exact absurd ⟨r', h1, hid.symm⟩ hfound
        · rw [List.mem_singleton.mp h1]
          constructor
          · exact ⟨q, List.mem_append_right _ (List.mem_singleton_self _),
              rfl, hex, rfl, rfl⟩
          · intro q' hq' hrel hid
            rcases List.mem_append.mp hq' with hp | hp
            · obtain ⟨r, hr, hrid⟩ := hcov q' hp hrel
              exact absurd ⟨r, hr, by rw [hrid]; exact hid⟩ hfound
            · rw [List.mem_singleton.mp hp]
              exact le_refl _
      · intro q' hq' hrel
        rcases List.mem_append.mp hq' with hp | hp
        · obtain ⟨r, hr, hrid⟩ := hcov q' hp hrel
          exact ⟨r, List.mem_append_left _ hr, hrid⟩
        · rw [List.mem_singleton.mp hp]
          exact ⟨mkMQResult q.2 (hitSimilarity q.2.distance) q.1,
            List.mem_append_right _ (List.mem_singleton_self _), rfl⟩

theorem mqInv_foldl (excl : Option String) (qs : List (Nat × MQHit)) :
    ∀ processed st, mqInv excl processed st →
      mqInv excl (processed ++ qs)
        (qs.foldl (fun st q => mqStep excl q.1 st q.2) st) := by
  induction qs with
  | nil => intro processed st h; simpa using h
  | cons q qs ih =>
    intro processed st h
    simp only [List.foldl_cons]
    have h1 := ih (processed ++ [q]) _ (mqStep_inv h q)
    rwa [List.append_assoc, List.singleton_append] at h1

theorem nested_foldl_eq_flat (excl : Option String)
    (L : List (Nat × List MQHit)) :
    ∀ init, L.foldl (fun st p => p.2.foldl (mqStep excl p.1) st) init
      = (L.flatMap (fun p => p.2.map (fun h => (p.1, h)))).foldl
          (fun st q => mqStep excl q.1 st q.2) init := by
  induction L with
  | nil => intro init; rfl
  | cons p L ih =>
    intro init
    rw [List.foldl_cons, List.flatMap_cons, List.foldl_append, ih]
    congr 1
    rw [List.foldl_map]

/-- The merge invariant, established for the full nested loop of
`search_chunks_multi_query`. -/
theorem mergeMultiQuery_inv (excl : Option String)
    (fragments : List (List MQHit)) :
    mqInv excl
      (fragments.enum.flatMap (fun p => p.2.map (fun h => (p.1, h))))
      (fragments.enum.foldl (fun st p => p.2.foldl (mqStep excl p.1) st) []) := by
  rw [nested_foldl_eq_flat]
  have h := mqInv_foldl excl
    (fragments.enum.flatMap (fun p => p.2.map (fun h => (p.1, h)))) [] []
    ⟨by simp, by simp, by simp⟩
  simpa using h

/-- C7: in multi-query search, the merged result has each `chunk_id` at most
once; each result's retained `similarity` is the maximum similarity observed
for that `chunk_id` over all non-excluded hits of all fragments, and its
`matched_by_query_chunk` is the index of a fragment containing a hit of that
`chunk_id` achieving that maximum. -/
theorem multi_query_merge_semantics (excl : Option String)
    (fragments : List (List MQHit)) (ftk : Option Nat) :
    (((searchChunksMultiQuery excl fragments ftk).map
        (fun r => r.chunk_id)).Nodup) ∧
    ∀ r ∈ searchChunksMultiQuery excl fragments ftk,
      (∃ p ∈ fragments.enum, ∃ h ∈ p.2, p.1 = r.matched_by_query_chunk ∧
        ¬mqExcluded excl h ∧ h.chunk_id = r.chunk_id ∧
        hitSimilarity h.distance = r.similarity) ∧
      ∀ p ∈ fragments.enum, ∀ h ∈ p.2, ¬mqExcluded excl h →
        h.chunk_id = r.chunk_id → hitSimilarity h.distance ≤ r.similarity := by
  obtain ⟨hnd, hmem, -⟩ := mergeMultiQuery_inv excl fragments
  have hndm : ((mergeMultiQuery excl fragments).map
      (fun r => r.chunk_id)).Nodup := by
    refine (((stableSort_perm mqSimDesc _).map _).nodup_iff).mpr hnd
  have hmemm : ∀ r ∈ mergeMultiQuery excl fragments,
      (∃ p ∈ fragments.enum, ∃ h ∈ p.2, p.1 = r.matched_by_query_chunk ∧
        ¬mqExcluded excl h ∧ h.chunk_id = r.chunk_id ∧
        hitSimilarity h.distance = r.similarity) ∧
      ∀ p ∈ fragments.enum, ∀ h ∈ p.2, ¬mqExcluded excl h →
        h.chunk_id = r.chunk_id → hitSimilarity h.distance ≤ r.similarity := by
    intro r hr
    have hr' := (stableSort_perm mqSimDesc _).mem_iff.mp hr
    obtain ⟨⟨q, hq, hq1, hq2, hq3, hq4⟩, hb⟩ := hmem r hr'
    constructor
    · obtain ⟨p, hp, hqp⟩ := List.mem_flatMap.mp hq
      obtain ⟨h, hh, hhq⟩ := List.mem_map.mp hqp
      refine ⟨p, hp, h, hh, ?_, ?_, ?_, ?_⟩
      · rw [show p.1 = q.1 from by rw [← hhq], hq1]
      · rw [show h = q.2 from by rw [← hhq]]; exact hq2
      · rw [show h = q.2 from by rw [← hhq]]; exact hq3
      · rw [show h = q.2 from by rw [← hhq]]; exact hq4
    · intro p hp h hh hrel hid
      refine hb (p.1, h) ?_ hrel hid
      exact List.mem_flatMap.mpr ⟨p, hp, List.mem_map.mpr ⟨h, hh, rfl⟩⟩
  cases ftk with
  | none => exact ⟨hndm, hmemm⟩
  | some k =>
    by_cases hk : k = 0
    · constructor
      · show (((if k = 0 then mergeMultiQuery excl fragments
          else (mergeMultiQuery excl fragments).take k)).map
            (fun r => r.chunk_id)).Nodup
        rw [if_pos hk]; exact hndm
      · intro r hr
        apply hmemm
        have hr' : r ∈ (if k = 0 then mergeMultiQuery excl fragments
          else (mergeMultiQuery excl fragments).take k) := hr
        rwa [if_pos hk] at hr'
    · constructor
      · show (((if k = 0 then mergeMultiQuery excl fragments
          else (mergeMultiQuery excl fragments).take k)).map
            (fun r => r.chunk_id)).Nodup
        rw [if_neg hk]
        exact hndm.sublist ((List.take_sublist _ _).map _)
      · intro r hr
        apply hmemm
        have hr' : r ∈ (if k = 0 then mergeMultiQuery excl fragments
          else (mergeMultiQuery excl fragments).take k) := hr
        rw [if_neg hk] at hr'
        exact List.mem_of_mem_take hr'

/-- Witness for C7: fragment 0 returns hits `"a"` (distance 1) and `"b"`
(distance 0); fragment 1 returns `"a"` again with distance 0, improving its
similarity.  The merged output is duplicate-free and dominates the observed
similarity of the fragment-0 hit on `"a"`. -/
theorem multi_query_merge_semantics_witness :
    ((searchChunksMultiQuery none
        [[⟨"a", "d1", "x", 1, 0, "p", "T", "t"⟩,
          ⟨"b", "d2", "y", 0, 1, "p", "T", "t"⟩],
         [⟨"a", "d1", "x", 0, 0, "p", "T", "t"⟩]] (some 5)).map
      (fun r => r.chunk_id)).Nodup ∧
    hitSimilarity (⟨"a", "d1", "x", 1, 0, "p", "T", "t"⟩ : MQHit).distance
      ≤ (⟨"a", "d1", "x", 1, 0, "p", "T", "t", 1⟩ : MQResult).similarity := by
  have h := multi_query_merge_semantics none
    [[⟨"a", "d1", "x", 1, 0, "p", "T", "t"⟩,
      ⟨"b", "d2", "y", 0, 1, "p", "T", "t"⟩],
     [⟨"a", "d1", "x", 0, 0, "p", "T", "t"⟩]] (some 5)
  refine ⟨h.1, ?_⟩
  have hmem : (⟨"a", "d1", "x", 1, 0, "p", "T", "t", 1⟩ : MQResult) ∈
      searchChunksMultiQuery none
        [[⟨"a", "d1", "x", 1, 0, "p", "T", "t"⟩,
          ⟨"b", "d2", "y", 0, 1, "p", "T", "t"⟩],
         [⟨"a", "d1", "x", 0, 0, "p", "T", "t"⟩]] (some 5) := by
    norm_num +decide [searchChunksMultiQuery, mergeMultiQuery, mqStep,
      mqUpdate, mkMQResult, hitSimilarity, mqExcluded, stableSort, insertOrd,
      mqSimDesc, List.enum, List.enumFrom, max_def, min_def]
  exact ((h.2 ⟨"a", "d1", "x", 1, 0, "p", "T", "t", 1⟩ hmem).2
    (0, [⟨"a", "d1", "x", 1, 0, "p", "T", "t"⟩,
         ⟨"b", "d2", "y", 0, 1, "p", "T", "t"⟩])
    (by decide)
    ⟨"a", "d1", "x", 1, 0, "p", "T", "t"⟩ (by decide) not_false rfl)
